import Mathlib

/-!
Shallow embedding of the blockchain-rust repository (src/block.rs,
src/transaction.rs, src/blockchain.rs, src/utxoset.rs, src/server.rs,
src/wallets.rs) in Lean 4, together with theorems settling the frozen
claims about the natural-language specification.

Modelling conventions:
* Bytes are `Nat`; byte buffers are `List Nat`; Rust `String` is `String`;
  `i32`/`i64` values are `Int`; `u128` timestamps are `Nat`.
* The external hash/signature/address primitives (SHA-256, RIPEMD-160,
  Ed25519, base58 address codec, bincode serialisation, the merkle_cbt
  crate), which the specification declares out of scope, are abstracted as
  a record `Prim` of deterministic functions; theorems quantify over them
  or add the hypotheses the claim needs (e.g. hex digests consist of hex
  characters).
* Fallible Rust code returns `Except String α`; code that can panic
  (out-of-bounds indexing, `unwrap`) returns `Option` with `none` for the
  panic; code doing both returns `Option (Except String α)`.
* Loops that Rust runs unboundedly (the mining loop) take an explicit
  fuel argument and return `none` when fuel runs out.
* The sled key-value stores are association lists `List (String × α)`
  with upsert semantics (`kvInsert` replaces in place).
-/

deriving instance DecidableEq for Except

namespace BlockchainRust

/-- The constant `TARGET_LEN` (the spec calls it `TARGET_HEXS`) from
src/block.rs. -/
def TARGET_LEN : Nat := 4

/-- The constant `SUBSIDY` from src/transaction.rs. -/
def SUBSIDY : Int := 10

/-- The constant `CMD_LEN` from src/server.rs. -/
def CMD_LEN : Nat := 12

/-- TXInput from src/transaction.rs. -/
structure TXInput where
  txid : String
  vout : Int
  signature : List Nat
  pub_key : List Nat
  deriving Repr, DecidableEq

/-- TXOutput from src/transaction.rs. -/
structure TXOutput where
  value : Int
  pub_key_hash : List Nat
  deriving Repr, DecidableEq

/-- TXOutputs from src/transaction.rs. -/
structure TXOutputs where
  outputs : List TXOutput
  deriving Repr, DecidableEq

/-- Transaction from src/transaction.rs. -/
structure Transaction where
  id : String
  vin : List TXInput
  vout : List TXOutput
  deriving Repr, DecidableEq

/-- Block from src/block.rs. -/
structure Block where
  timestamp : Nat
  transactions : List Transaction
  prev_block_hash : String
  hash : String
  height : Int
  nonce : Int
  deriving Repr, DecidableEq

/-- Wallet from src/wallets.rs (an Ed25519 key pair as raw byte lists). -/
structure Wallet where
  secret_key : List Nat
  public_key : List Nat
  deriving Repr, DecidableEq

/-- The external primitives the core delegates to, abstracted as
deterministic functions: SHA-256 as a lowercase-hex string digest,
bincode serialisation of the block image tuple and of transactions, the
merkle_cbt Merkle root over the transaction-hash strings, the
bitcoincash_addr base58 codec, RIPEMD-160(SHA-256(·)) public-key hashing,
and the rust-crypto Ed25519 signature scheme (messages are the id strings
whose bytes the code signs). -/
structure Prim where
  sha256hex : List Nat → String
  serTx : Transaction → List Nat
  serBlockImage : String → List Nat → Nat → Nat → Int → List Nat
  merkleRoot : List String → List Nat
  decodeAddr : String → List Nat
  encodeAddr : List Nat → String
  hashPubKey : List Nat → List Nat
  edSignature : String → List Nat → List Nat
  edVerify : String → List Nat → List Nat → Bool

/-- The byte rendering of a string (`as_bytes` in the source; all strings
the repository hashes or frames are ASCII, so character codes model the
UTF-8 bytes). -/
def strBytes (s : String) : List Nat := s.data.map Char.toNat

/-- Transaction::hash from src/transaction.rs: SHA-256 hex of the
serialised transaction with `id` blanked. -/
def Transaction.hash (P : Prim) (tx : Transaction) : String :=
  P.sha256hex (P.serTx { tx with id := "" })

/-- Transaction::is_coinbase from src/transaction.rs. -/
def Transaction.is_coinbase (tx : Transaction) : Bool :=
  tx.vin.length = 1 && (tx.vin.headD { txid := "", vout := 0, signature := [], pub_key := [] }).txid = "" &&
    (tx.vin.headD { txid := "", vout := 0, signature := [], pub_key := [] }).vout = -1

/-- TXOutput::new from src/transaction.rs: lock the output to the
public-key hash decoded from the base58 address. -/
def TXOutput.new (P : Prim) (value : Int) (address : String) : TXOutput :=
  { value := value, pub_key_hash := P.decodeAddr address }

/-- The memo string `format!("Reward to '{to}'")` built in
Transaction::new_coinbase (apostrophe written via its character code). -/
def rewardMemo (toAddr : String) : String :=
  "Reward to " ++ String.mk [Char.ofNat 39] ++ toAddr ++ String.mk [Char.ofNat 39]

/-- Transaction::new_coinbase from src/transaction.rs. The 32 random bytes
drawn by `thread_rng` in the empty-memo branch are passed in explicitly as
`rng`; in the non-empty-memo branch `key` keeps its `[0u8; 32]`
initialiser. -/
def Transaction.new_coinbase (P : Prim) (rng : List Nat) (toAddr data : String) : Transaction :=
  let key : List Nat := if data = "" then rng else List.replicate 32 0
  let data : String := if data = "" then rewardMemo toAddr else data
  let pub_key : List Nat := strBytes data ++ key
  let tx : Transaction :=
    { id := ""
      vin := [{ txid := "", vout := -1, signature := [], pub_key := pub_key }]
      vout := [TXOutput.new P SUBSIDY toAddr] }
  { tx with id := tx.hash P }

/-- TXOutput::is_locked_with_key from src/transaction.rs. -/
def TXOutput.is_locked_with_key (out : TXOutput) (pub_key_hash : List Nat) : Bool :=
  out.pub_key_hash = pub_key_hash

/-- TXInput::can_unlock_output_with from src/transaction.rs. -/
def TXInput.can_unlock_output_with (P : Prim) (i : TXInput) (unlocking_data : List Nat) : Bool :=
  P.hashPubKey i.pub_key = unlocking_data

/-- Block::hash_transactions from src/block.rs: the merkle_cbt root over
the per-transaction hash strings (leaf construction and tree shape live in
the external crate, abstracted in `Prim.merkleRoot`). -/
def hash_transactions (P : Prim) (txs : List Transaction) : List Nat :=
  P.merkleRoot (txs.map fun t => t.hash P)

/-- Block::prepare_hash_data from src/block.rs: bincode of the tuple
`(prev_block_hash, merkle root, timestamp, TARGET_LEN, nonce)`. -/
def prepare_hash_data (P : Prim) (b : Block) : List Nat :=
  P.serBlockImage b.prev_block_hash (hash_transactions P b.transactions) b.timestamp TARGET_LEN b.nonce

/-- The comparison string `String::from_utf8(vec![0u8; TARGET_LEN])` from
Block::validate: TARGET_LEN NUL characters. -/
def nulTarget : String := String.mk (List.replicate TARGET_LEN (Char.ofNat 0))

/-- Block::validate from src/block.rs: the first TARGET_LEN bytes of the
lowercase hex SHA-256 of the prepared image (its first TARGET_LEN
characters, the digest being ASCII) equal `nulTarget`. -/
def Block.validate (P : Prim) (b : Block) : Bool :=
  String.mk ((P.sha256hex (prepare_hash_data P b)).data.take TARGET_LEN) == nulTarget

/-- Block::run_proof_of_work from src/block.rs, with explicit fuel: test
`validate`, incrementing `nonce` on each failure; on success store the hex
SHA-256 of the same image in `hash`. `none` models the loop not having
terminated within `fuel` iterations. -/
def run_proof_of_work (P : Prim) : Nat → Block → Option Block
  | 0, _ => none
  | fuel + 1, b =>
      if b.validate P then some { b with hash := P.sha256hex (prepare_hash_data P b) }
      else run_proof_of_work P fuel { b with nonce := b.nonce + 1 }

/-- Block::new from src/block.rs: stamp the clock-provided timestamp, set
`nonce := 0`, leave `hash` empty, and run the proof-of-work loop. -/
def Block.new (P : Prim) (data : List Transaction) (prev_block_hash : String)
    (height : Int) (timestamp : Nat) (fuel : Nat) : Option Block :=
  run_proof_of_work P fuel
    { timestamp := timestamp, transactions := data, prev_block_hash := prev_block_hash
      hash := "", height := height, nonce := 0 }

/-- Lookup in an association-list map (HashMap::get / sled get). -/
def kvGet (m : List (String × α)) (k : String) : Option α :=
  (m.find? fun e => e.1 == k).map (·.2)

/-- Upsert into an association-list map (HashMap::insert / sled insert):
replace the value in place when the key is present, append otherwise. -/
def kvInsert (m : List (String × α)) (k : String) (v : α) : List (String × α) :=
  match m with
  | [] => [(k, v)]
  | e :: rest => if e.1 == k then (k, v) :: rest else e :: kvInsert rest k v

/-- Removal from an association-list map (sled remove). -/
def kvRemove (m : List (String × α)) (k : String) : List (String × α) :=
  match m with
  | [] => []
  | e :: rest => if e.1 == k then rest else e :: kvRemove rest k

/-- Transaction::trim_copy from src/transaction.rs: clone with every
input's `signature` and `pub_key` emptied. -/
def trim_copy (tx : Transaction) : Transaction :=
  { id := tx.id
    vin := tx.vin.map fun v => { txid := v.txid, vout := v.vout, signature := [], pub_key := [] }
    vout := tx.vout.map fun v => { value := v.value, pub_key_hash := v.pub_key_hash } }

/-- The guard loop shared by Transaction::sign and Transaction::verify:
error when a referenced previous transaction has an empty id; `none`
models the `unwrap` panic when the map lacks a referenced txid. -/
def checkPrevTXs (prevTXs : List (String × Transaction)) : List TXInput → Option (Except String Unit)
  | [] => some (Except.ok ())
  | v :: rest =>
      match kvGet prevTXs v.txid with
      | none => none
      | some p =>
          if p.id = "" then some (Except.error "ERROR: Previous transaction is not correct")
          else checkPrevTXs prevTXs rest

/-- The per-input digest step shared by Transaction::sign and
Transaction::verify: on the working copy, clear input `i`'s signature,
overwrite its `pub_key` with the referenced output's `pub_key_hash`,
re-hash the copy into its `id`, then clear the `pub_key` again. Returns
the updated copy and the digest; `none` models the `unwrap` / index
panics. -/
def txDigest (P : Prim) (prevTXs : List (String × Transaction)) (c : Transaction) (i : Nat) :
    Option (Transaction × String) :=
  match c.vin[i]? with
  | none => none
  | some v =>
      match kvGet prevTXs v.txid with
      | none => none
      | some prev_tx =>
          if v.vout < 0 then none
          else
            match prev_tx.vout[v.vout.toNat]? with
            | none => none
            | some out =>
                let c1 : Transaction :=
                  { c with vin := c.vin.set i { v with signature := [], pub_key := out.pub_key_hash } }
                let d : String := c1.hash P
                let c2 : Transaction :=
                  { c1 with id := d, vin := c1.vin.set i { v with signature := [], pub_key := [] } }
                some (c2, d)

/-- The signing loop of Transaction::sign: for each input index, compute
the per-input digest and store the Ed25519 signature on the original
transaction's input. -/
def signInputs (P : Prim) (private_key : List Nat) (prevTXs : List (String × Transaction)) :
    Transaction → Transaction → List Nat → Option Transaction
  | self, _, [] => some self
  | self, c, i :: rest =>
      match txDigest P prevTXs c i with
      | none => none
      | some (c2, d) =>
          match self.vin[i]? with
          | none => none
          | some v =>
              signInputs P private_key prevTXs
                { self with vin := self.vin.set i { v with signature := P.edSignature d private_key } }
                c2 rest

/-- Transaction::sign from src/transaction.rs. -/
def Transaction.sign (P : Prim) (tx : Transaction) (private_key : List Nat)
    (prevTXs : List (String × Transaction)) : Option (Except String Transaction) :=
  if tx.is_coinbase then some (Except.ok tx)
  else
    match checkPrevTXs prevTXs tx.vin with
    | none => none
    | some (Except.error e) => some (Except.error e)
    | some (Except.ok ()) =>
        match signInputs P private_key prevTXs tx (trim_copy tx) (List.range tx.vin.length) with
        | none => none
        | some tx2 => some (Except.ok tx2)

/-- The verification loop of Transaction::verify. The source passes
`self.vin[in_id].pub_key` as both the public-key argument and the
signature argument of `ed25519::verify`; the embedding reproduces that
call exactly. -/
def verifyInputs (P : Prim) (self : Transaction) (prevTXs : List (String × Transaction)) :
    Transaction → List Nat → Option Bool
  | _, [] => some true
  | c, i :: rest =>
      match txDigest P prevTXs c i with
      | none => none
      | some (c2, d) =>
          match self.vin[i]? with
          | none => none
          | some v =>
              if P.edVerify d v.pub_key v.pub_key then verifyInputs P self prevTXs c2 rest
              else some false

/-- Transaction::verify from src/transaction.rs. -/
def Transaction.verify (P : Prim) (tx : Transaction)
    (prevTXs : List (String × Transaction)) : Option (Except String Bool) :=
  if tx.is_coinbase then some (Except.ok true)
  else
    match checkPrevTXs prevTXs tx.vin with
    | none => none
    | some (Except.error e) => some (Except.error e)
    | some (Except.ok ()) =>
        match verifyInputs P tx prevTXs (trim_copy tx) (List.range tx.vin.length) with
        | none => none
        | some b => some (Except.ok b)

/-- Blockchain state from src/blockchain.rs: the `blocks` KV split into
its block entries (`store`, keyed by block hash) and its `LAST` entry
(`last`), plus the in-memory `tip`. -/
structure BCState where
  store : List (String × Block)
  last : Option String
  tip : String
  deriving Repr, DecidableEq

/-- Blockchain::get_best_height from src/blockchain.rs: `-1` when `LAST`
is absent; otherwise the height of the block `LAST` references (`none`
models the `unwrap` panic when that block is missing). -/
def get_best_height (st : BCState) : Option Int :=
  match st.last with
  | none => some (-1)
  | some h => (kvGet st.store h).map Block.height

/-- Blockchain::add_block from src/blockchain.rs: return unchanged on a
duplicate hash; otherwise insert the block, then update `LAST` and the tip
exactly when the block's height exceeds the best height. -/
def add_block (st : BCState) (b : Block) : Option BCState :=
  if (kvGet st.store b.hash).isSome then some st
  else
    match get_best_height { st with store := kvInsert st.store b.hash b } with
    | none => none
    | some last_height =>
        if b.height > last_height then
          some { store := kvInsert st.store b.hash b, last := some b.hash, tip := b.hash }
        else some { st with store := kvInsert st.store b.hash b }

/-- BlockchainIterator::next from src/blockchain.rs, iterated: walk from a
tip hash towards genesis by `prev_block_hash`, stopping when a hash is not
present in the store; `fuel` bounds the walk. -/
def iterChain (store : List (String × Block)) : String → Nat → List Block
  | _, 0 => []
  | tip, fuel + 1 =>
      match kvGet store tip with
      | none => []
      | some b => b :: iterChain store b.prev_block_hash fuel

/-- The block sequence Blockchain::iter yields on a state: the walk from
the in-memory tip, with fuel one more than the store size (enough to reach
the natural stopping point on every well-formed state). -/
def chainOf (st : BCState) : List Block :=
  iterChain st.store st.tip (st.store.length + 1)

/-- Blockchain::find_transaction from src/blockchain.rs: the first
transaction with the given id along the tip-to-genesis walk. -/
def find_transaction (chain : List Block) (id : String) : Except String Transaction :=
  match chain with
  | [] => Except.error "Transaction is not found"
  | b :: rest =>
      match b.transactions.find? (fun t => t.id == id) with
      | some t => Except.ok t
      | none => find_transaction rest id

/-- The input loop of Blockchain::get_prev_tx_map: look up each input's
referenced transaction and insert it keyed by the found id. -/
def prevTxFold (chain : List Block) :
    List TXInput → List (String × Transaction) → Except String (List (String × Transaction))
  | [], m => Except.ok m
  | v :: rest, m =>
      match find_transaction chain v.txid with
      | Except.error e => Except.error e
      | Except.ok prev => prevTxFold chain rest (kvInsert m prev.id prev)

/-- Blockchain::get_prev_tx_map from src/blockchain.rs: look up every
input's referenced transaction and key the map by the found id. -/
def get_prev_tx_map (chain : List Block) (tx : Transaction) :
    Except String (List (String × Transaction)) :=
  prevTxFold chain tx.vin []

/-- Blockchain::sign_transaction from src/blockchain.rs. -/
def sign_transaction (P : Prim) (chain : List Block) (tx : Transaction)
    (private_key : List Nat) : Option (Except String Transaction) :=
  match get_prev_tx_map chain tx with
  | Except.error e => some (Except.error e)
  | Except.ok m => tx.sign P private_key m

/-- Blockchain::verify_transaction from src/blockchain.rs. -/
def verify_transaction (P : Prim) (chain : List Block) (tx : Transaction) :
    Option (Except String Bool) :=
  match get_prev_tx_map chain tx with
  | Except.error e => some (Except.error e)
  | Except.ok m => tx.verify P m

/-- Push an index onto the `Vec<i32>` held at a key of a
`HashMap<String, Vec<i32>>` (the `get_mut`-push-or-insert pattern of
find_UTXO's spent map and of find_spendable_outputs' selection map). -/
def pushIdx (m : List (String × List Int)) (k : String) (v : Int) : List (String × List Int) :=
  match m with
  | [] => [(k, [v])]
  | e :: rest => if e.1 == k then (e.1, e.2 ++ [v]) :: rest else e :: pushIdx rest k v

/-- Membership test `spend_txos.get(&tx.id)` + `ids.contains(&index)` from
Blockchain::find_UTXO. -/
def spentContains (m : List (String × List Int)) (k : String) (v : Int) : Bool :=
  match kvGet m k with
  | none => false
  | some l => l.contains v

/-- Append an output to the `TXOutputs` held at a key of the UTXO map (the
`get_mut`-push-or-insert pattern of Blockchain::find_UTXO). -/
def pushUTXO (m : List (String × TXOutputs)) (k : String) (o : TXOutput) :
    List (String × TXOutputs) :=
  match m with
  | [] => [(k, ⟨[o]⟩)]
  | e :: rest => if e.1 == k then (e.1, ⟨e.2.outputs ++ [o]⟩) :: rest else e :: pushUTXO rest k o

/-- The output loop of Blockchain::find_UTXO on one transaction: add every
output whose `(tx.id, index)` is not yet recorded as spent. -/
def processTxOutputs (spent : List (String × List Int)) (tx : Transaction)
    (utxos : List (String × TXOutputs)) : List (String × TXOutputs) :=
  tx.vout.enum.foldl
    (fun u p => if spentContains spent tx.id (p.1 : Int) then u else pushUTXO u tx.id p.2) utxos

/-- The input loop of Blockchain::find_UTXO on one transaction: record
every input of a non-coinbase transaction in the spent map. -/
def processTxInputs (tx : Transaction) (spent : List (String × List Int)) :
    List (String × List Int) :=
  if tx.is_coinbase then spent
  else tx.vin.foldl (fun s i => pushIdx s i.txid i.vout) spent

/-- One transaction step of Blockchain::find_UTXO: outputs first (against
the spent map so far), then inputs. -/
def findUTXOStep (acc : List (String × TXOutputs) × List (String × List Int))
    (tx : Transaction) : List (String × TXOutputs) × List (String × List Int) :=
  (processTxOutputs acc.2 tx acc.1, processTxInputs tx acc.2)

/-- Blockchain::find_UTXO from src/blockchain.rs: one walk over the chain
(tip first), threading the UTXO map and the spent map through every
transaction. -/
def find_UTXO (chain : List Block) : List (String × TXOutputs) :=
  (chain.foldl (fun acc b => b.transactions.foldl findUTXOStep acc) ([], [])).1

/-- UTXOSet::reindex from src/utxoset.rs: rebuild the `utxos` KV from
scratch out of Blockchain::find_UTXO. -/
def UTXOSet.reindex (chain : List Block) : List (String × TXOutputs) :=
  find_UTXO chain

/-- The per-input body of UTXOSet::update: load the stored outputs of the
referenced transaction (`none` models the `unwrap` panic when absent),
keep those whose position differs from `vin.vout`, and delete the key when
nothing remains. -/
def updateTxInput (db : List (String × TXOutputs)) (vin : TXInput) :
    Option (List (String × TXOutputs)) :=
  match kvGet db vin.txid with
  | none => none
  | some outs =>
      let update_outputs : List TXOutput :=
        ((outs.outputs.enum.filter fun p => (p.1 : Int) != vin.vout).map (·.2))
      if update_outputs = [] then some (kvRemove db vin.txid)
      else some (kvInsert db vin.txid ⟨update_outputs⟩)

/-- UTXOSet::update from src/utxoset.rs: for each transaction of the
block, process its inputs (unless coinbase), then store every output it
produced under its id. -/
def UTXOSet.update (db : List (String × TXOutputs)) (block : Block) :
    Option (List (String × TXOutputs)) :=
  block.transactions.foldlM
    (fun d tx => do
      let d1 ← if tx.is_coinbase then pure d else tx.vin.foldlM updateTxInput d
      pure (kvInsert d1 tx.id ⟨tx.vout⟩))
    db

/-- UTXOSet::find_spendable_outputs from src/utxoset.rs: iterate the
stored entries in order, adding outputs locked to the address while the
accumulated total is still below `amount`. -/
def UTXOSet.find_spendable_outputs (db : List (String × TXOutputs)) (address : List Nat)
    (amount : Int) : Int × List (String × List Int) :=
  db.foldl
    (fun acc e =>
      e.2.outputs.enum.foldl
        (fun acc2 p =>
          if p.2.is_locked_with_key address && acc2.1 < amount then
            (acc2.1 + p.2.value, pushIdx acc2.2 e.1 (p.1 : Int))
          else acc2)
        acc)
    (0, [])

/-- Wallet::get_address from src/wallets.rs: base58-encode the public-key
hash. -/
def Wallet.get_address (P : Prim) (w : Wallet) : String :=
  P.encodeAddr (P.hashPubKey w.public_key)

/-- Transaction::new_UTXO from src/transaction.rs: select spendable
outputs, fail on insufficient balance, build one input per selected
`(txid, vout)` pair carrying the wallet's public key, build the payment
output and (when change remains) the change output, set the id, and sign
through the chain. -/
def Transaction.new_UTXO (P : Prim) (chain : List Block) (db : List (String × TXOutputs))
    (wallet : Wallet) (toAddr : String) (amount : Int) : Option (Except String Transaction) :=
  let acc_v := UTXOSet.find_spendable_outputs db (P.hashPubKey wallet.public_key) amount
  if acc_v.1 < amount then some (Except.error "Not Enough balance")
  else
    let vin : List TXInput :=
      acc_v.2.foldl
        (fun v txp =>
          v ++ txp.2.map fun out =>
            { txid := txp.1, vout := out, signature := [], pub_key := wallet.public_key })
        []
    let vout : List TXOutput :=
      [TXOutput.new P amount toAddr] ++
        (if acc_v.1 > amount then [TXOutput.new P (acc_v.1 - amount) (wallet.get_address P)]
         else [])
    let tx : Transaction := { id := "", vin := vin, vout := vout }
    sign_transaction P chain { tx with id := tx.hash P } wallet.secret_key

/-- The verification gate at the head of Blockchain::mine_block: every
transaction must verify; a `false` verdict becomes the `InvalidTx`
error. -/
def verifyAllTxs (P : Prim) (chain : List Block) : List Transaction → Option (Except String Unit)
  | [] => some (Except.ok ())
  | tx :: rest =>
      match verify_transaction P chain tx with
      | none => none
      | some (Except.error e) => some (Except.error e)
      | some (Except.ok false) => some (Except.error "ERROR: Invalid transaction")
      | some (Except.ok true) => verifyAllTxs P chain rest

/-- Blockchain::mine_block from src/blockchain.rs: verify the
transactions, read `LAST`, mine at `best_height + 1` on top of it, persist
the block and move `LAST` and the tip to it. -/
def mine_block (P : Prim) (st : BCState) (txs : List Transaction) (ts fuel : Nat) :
    Option (Except String (BCState × Block)) :=
  match verifyAllTxs P (chainOf st) txs with
  | none => none
  | some (Except.error e) => some (Except.error e)
  | some (Except.ok ()) =>
      match st.last with
      | none => none
      | some last_hash =>
          match get_best_height st with
          | none => none
          | some best =>
              match Block.new P txs last_hash (best + 1) ts fuel with
              | none => none
              | some b =>
                  some (Except.ok
                    ({ store := kvInsert st.store b.hash b, last := some b.hash, tip := b.hash }, b))

/-- Block::new_genesis_block from src/block.rs. -/
def new_genesis_block (P : Prim) (coinbase : Transaction) (ts fuel : Nat) : Option Block :=
  Block.new P [coinbase] "" 0 ts fuel

/-- Blockchain::create_blockchain from src/blockchain.rs: erase any
existing store, mine the genesis block over the `GENESIS_COINBASE`
coinbase, and point `LAST` and the tip at it. -/
def create_blockchain (P : Prim) (rng : List Nat) (address : String) (ts fuel : Nat) :
    Option BCState :=
  (new_genesis_block P (Transaction.new_coinbase P rng address "GENESIS_COINBASE") ts fuel).map
    fun genesis => { store := [(genesis.hash, genesis)], last := some genesis.hash, tip := genesis.hash }

/-- Chain states reachable through the three chain-mutating operations, as
the code constrains them (Blockchain::add_block accepts any pre-mined
block from the network). The mining constructor drops mine_block's
verification gate: that gate only restricts which transaction lists can be
mined and removing it only enlarges the reachable set. -/
inductive Reach (P : Prim) : BCState → Prop where
  | create : ∀ rng address ts fuel st,
      create_blockchain P rng address ts fuel = some st → Reach P st
  | mine : ∀ st txs ts fuel st2 b, Reach P st →
      mine_block P st txs ts fuel = some (Except.ok (st2, b)) → Reach P st2
  | add : ∀ st b st2, Reach P st → add_block st b = some st2 → Reach P st2

/-- Chain states reachable when the network-facing add_block input is
additionally well-formed — it carries a non-empty hash and either is a
genesis block (height 0, empty previous hash) or extends a stored parent
whose height is exactly one less — and every mined block's hash is fresh.
This is the amendment the orphan-block counterexample forces on the
iteration claim. -/
inductive ReachW (P : Prim) : BCState → Prop where
  | create : ∀ rng address ts fuel st,
      create_blockchain P rng address ts fuel = some st → ReachW P st
  | mine : ∀ st txs ts fuel st2 b, ReachW P st →
      mine_block P st txs ts fuel = some (Except.ok (st2, b)) →
      kvGet st.store b.hash = none → ReachW P st2
  | add : ∀ st b st2, ReachW P st →
      b.hash ≠ "" →
      (b.height = 0 ∧ b.prev_block_hash = "" ∨
        0 < b.height ∧ ∃ pb, kvGet st.store b.prev_block_hash = some pb ∧
          pb.height = b.height - 1) →
      add_block st b = some st2 → ReachW P st2

/-- Well-formedness of the block store: every entry is keyed by its
block's hash, hashes are non-empty, heights are non-negative and below the
store size, height-0 blocks have an empty previous hash, and every
positive-height block has a stored parent of height one less. -/
structure StoreWF (store : List (String × Block)) : Prop where
  keyed : ∀ k bb, (k, bb) ∈ store → k = bb.hash
  hashNe : ∀ k bb, (k, bb) ∈ store → bb.hash ≠ ""
  heightNonneg : ∀ k bb, (k, bb) ∈ store → 0 ≤ bb.height
  heightBound : ∀ k bb, (k, bb) ∈ store → bb.height < store.length
  genesisPrev : ∀ k bb, (k, bb) ∈ store → bb.height = 0 → bb.prev_block_hash = ""
  parent : ∀ k bb, (k, bb) ∈ store → 0 < bb.height →
    ∃ pb, kvGet store bb.prev_block_hash = some pb ∧ pb.height = bb.height - 1

/-- Well-formedness of a chain state: a well-formed store whose `LAST`
entry matches the in-memory tip, which resolves to a stored block. -/
structure WFState (st : BCState) : Prop where
  storeWF : StoreWF st.store
  lastTip : st.last = some st.tip
  tipIn : ∃ b, kvGet st.store st.tip = some b

/-- Flatten a `(txid, vout-list)` selection map into its `(txid, vout)`
pairs, in map order. -/
def selPairs (sel : List (String × List Int)) : List (String × Int) :=
  sel.foldl (fun acc txp => acc ++ txp.2.map fun o => (txp.1, o)) []

/-- BlockMsg from src/server.rs. -/
structure BlockMsg where
  address_from : String
  block : Block
  deriving Repr, DecidableEq

/-- GetBlocksMsg from src/server.rs. -/
structure GetBlocksMsg where
  address_from : String
  deriving Repr, DecidableEq

/-- GetDataMsg from src/server.rs. -/
structure GetDataMsg where
  address_from : String
  kind : String
  id : String
  deriving Repr, DecidableEq

/-- InviteMsg from src/server.rs. -/
structure InviteMsg where
  address_from : String
  kind : String
  items : List String
  deriving Repr, DecidableEq

/-- TransactionMsg from src/server.rs. -/
structure TransactionMsg where
  address_from : String
  transaction : Transaction
  deriving Repr, DecidableEq

/-- VersionMsg from src/server.rs. -/
structure VersionMsg where
  address_from : String
  version : Int
  best_height : Int
  deriving Repr, DecidableEq

/-- Message from src/server.rs. -/
inductive Message where
  | Address : List String → Message
  | Version : VersionMsg → Message
  | Tx : TransactionMsg → Message
  | GetData : GetDataMsg → Message
  | GetBlocks : GetBlocksMsg → Message
  | Invite : InviteMsg → Message
  | BlockM : BlockMsg → Message
  deriving Repr, DecidableEq

/-- The bincode payload deserialisers `bytes_to_cmd` dispatches to, plus
the UTF-8 validity test behind `String::from_utf8`, abstracted as total
functions (`none` is a deserialisation error). -/
structure Deser where
  addrMsg : List Nat → Option (List String)
  blockMsg : List Nat → Option BlockMsg
  invMsg : List Nat → Option InviteMsg
  getBlocksMsg : List Nat → Option GetBlocksMsg
  getDataMsg : List Nat → Option GetDataMsg
  txMsg : List Nat → Option TransactionMsg
  versionMsg : List Nat → Option VersionMsg
  validUtf8 : List Nat → Bool

/-- Turn a deserialiser result into the `Result<Message>` the handler
returns. -/
def liftDeser (f : α → Message) : Option α → Except String Message
  | some v => Except.ok (f v)
  | none => Except.error "deserialize error"

/-- bytes_to_cmd from src/server.rs. The source slices `bytes[0..CMD_LEN]`
unconditionally, so a buffer shorter than CMD_LEN bytes panics (`none`);
otherwise the non-zero bytes of the command slab select the payload
deserialiser and every outcome is a returned `Result`. -/
def bytes_to_cmd (D : Deser) (bytes : List Nat) : Option (Except String Message) :=
  if bytes.length < CMD_LEN then none
  else
    let cmd_bytes := bytes.take CMD_LEN
    let data := bytes.drop CMD_LEN
    let cmd := cmd_bytes.filter fun b => b != 0
    some <|
      if !D.validUtf8 cmd then Except.error "invalid utf-8 sequence"
      else if cmd = strBytes "addr" then liftDeser Message.Address (D.addrMsg data)
      else if cmd = strBytes "block" then liftDeser Message.BlockM (D.blockMsg data)
      else if cmd = strBytes "inv" then liftDeser Message.Invite (D.invMsg data)
      else if cmd = strBytes "getblocks" then liftDeser Message.GetBlocks (D.getBlocksMsg data)
      else if cmd = strBytes "getdata" then liftDeser Message.GetData (D.getDataMsg data)
      else if cmd = strBytes "tx" then liftDeser Message.Tx (D.txMsg data)
      else if cmd = strBytes "version" then liftDeser Message.Version (D.versionMsg data)
      else Except.error "Unknown command in the server"

/-- Sum of the values of a list of outputs. -/
def sumOuts (l : List TXOutput) : Int := (l.map TXOutput.value).sum

/-- Sum of the values of all outputs stored over all entries of a UTXO
map. -/
def sumStore (m : List (String × TXOutputs)) : Int :=
  (m.map fun e => sumOuts e.2.outputs).sum

/-- All transactions of a chain in iteration order (tip first, block
transaction order inside each block). -/
def allTxs (chain : List Block) : List Transaction :=
  (chain.map Block.transactions).flatten

/-- Sum of the values of all coinbase outputs of a chain. -/
def sumCoinbaseOuts (chain : List Block) : Int :=
  (((allTxs chain).filter Transaction.is_coinbase).map fun t => sumOuts t.vout).sum

/-- Sum of the values of all outputs of all transactions of a chain. -/
def sumAllOuts (chain : List Block) : Int :=
  ((allTxs chain).map fun t => sumOuts t.vout).sum

/-- The `(txid, vout)` references a transaction's inputs make (empty for a
coinbase, which spends nothing). -/
def refsOfTx (tx : Transaction) : List (String × Int) :=
  if tx.is_coinbase then [] else tx.vin.map fun i => (i.txid, i.vout)

/-- All spend references of a list of transactions. -/
def refsJoin (ts : List Transaction) : List (String × Int) :=
  (ts.map refsOfTx).flatten

/-- The spend references of every transaction point to a transaction
strictly later in the tip-to-genesis transaction order (an older block),
at a valid output index. -/
def refsForwardB : List Transaction → Bool
  | [] => true
  | t :: rest =>
      ((refsOfTx t).all fun r =>
        rest.any fun u => u.id == r.1 && decide (0 ≤ r.2) && decide (r.2.toNat < u.vout.length)) &&
      refsForwardB rest

/-- The output indices a reference list mentions for one transaction
id. -/
def refsTo (rs : List (String × Int)) (id : String) : List Int :=
  (rs.filter fun r => r.1 == id).map (·.2)

/-- The value the output at integer index `v` of an output list holds
(zero when out of range). -/
def vAt (outs : List TXOutput) (v : Int) : Int :=
  match outs[v.toNat]? with
  | some o => o.value
  | none => 0

/-- The value a spend reference consumes: the referenced output's value in
the first transaction of the chain carrying the referenced id. -/
def refValue (ts : List Transaction) (r : String × Int) : Int :=
  match ts.find? (fun t => t.id == r.1) with
  | none => 0
  | some t => vAt t.vout r.2

/-- Sum of the values spent by all non-coinbase inputs of a chain. -/
def sumSpent (chain : List Block) : Int :=
  ((refsJoin (allTxs chain)).map (refValue (allTxs chain))).sum

/-- Strict descent of a height sequence. -/
def strictlyDescending : List Int → Bool
  | [] => true
  | [_] => true
  | a :: b :: rest => decide (b < a) && strictlyDescending (b :: rest)

/-- The property claimed of tip-to-genesis iteration: the heights strictly
decrease along the walk and the walk ends at a height-0 block with an
empty `prev_block_hash`. -/
def goodChainB : List Block → Bool
  | [] => false
  | [g] => g.height == 0 && g.prev_block_hash == ""
  | a :: b :: rest => decide (b.height < a.height) && goodChainB (b :: rest)

/-! Concrete instantiations of the abstract primitives and concrete
states, used to evaluate the embedded code at specific inputs. -/

/-- The sixteen lowercase hex digit characters. -/
def hexDigits : String := "0123456789abcdef"

/-- The 64 NUL characters digest: a toy digest function value under which
the proof-of-work comparison succeeds immediately. -/
def nulHex : String := String.mk (List.replicate 64 (Char.ofNat 0))

/-- Toy primitives whose digest is the all-NUL string, making the mining
loop succeed on its first test. -/
def P0 : Prim :=
  { sha256hex := fun _ => nulHex, serTx := fun _ => [], serBlockImage := fun _ _ _ _ _ => []
    merkleRoot := fun _ => [], decodeAddr := fun _ => [], encodeAddr := fun _ => ""
    hashPubKey := fun l => l, edSignature := fun _ _ => [], edVerify := fun _ _ _ => false }

/-- Toy primitives with a constant digest `"D"` and a correct toy
signature scheme in which a key signs by prepending itself (public and
secret key coincide): `edVerify m pk (edSignature m pk) = true` for every
message and key. -/
def P1 : Prim :=
  { sha256hex := fun _ => "D", serTx := fun _ => [], serBlockImage := fun _ _ _ _ _ => []
    merkleRoot := fun _ => [], decodeAddr := fun _ => [], encodeAddr := fun _ => ""
    hashPubKey := fun l => l, edSignature := fun m k => 99 :: k ++ strBytes m
    edVerify := fun m pk s => s == 99 :: pk ++ strBytes m }

/-- Toy primitives whose digest is 64 repetitions of the hex character
`a`. -/
def P2 : Prim :=
  { sha256hex := fun _ => String.mk (List.replicate 64 (Char.ofNat 97))
    serTx := fun _ => [], serBlockImage := fun _ _ _ _ _ => []
    merkleRoot := fun _ => [], decodeAddr := fun _ => [], encodeAddr := fun _ => ""
    hashPubKey := fun l => l, edSignature := fun _ _ => [], edVerify := fun _ _ _ => false }

/-- A transaction spending output 0 of the previous transaction
`prevTxC1`, before signing. -/
def txC1 : Transaction :=
  { id := "t"
    vin := [{ txid := "p", vout := 0, signature := [], pub_key := [7] }]
    vout := [{ value := 10, pub_key_hash := [2] }] }

/-- The previous transaction `txC1` spends. -/
def prevTxC1 : Transaction :=
  { id := "p", vin := [], vout := [{ value := 10, pub_key_hash := [1] }] }

/-- The `prev_TXs` map for `txC1`. -/
def prevsC1 : List (String × Transaction) := [("p", prevTxC1)]

/-- The transaction `txC1` after Transaction::sign under `P1` with secret
key `[7]`: the per-input digest is `"D"` and the stored signature is
`edSignature "D" [7] = [99, 7, 68]`. -/
def txC1s : Transaction :=
  { id := "t"
    vin := [{ txid := "p", vout := 0, signature := [99, 7, 68], pub_key := [7] }]
    vout := [{ value := 10, pub_key_hash := [2] }] }

/-- A coinbase transaction with two outputs (a payment and change
pattern), spent across the two later blocks of the C4 scenario. -/
def txP4 : Transaction :=
  { id := "P"
    vin := [{ txid := "", vout := -1, signature := [], pub_key := [8] }]
    vout := [{ value := 4, pub_key_hash := [1] }, { value := 6, pub_key_hash := [1] }] }

/-- A transaction spending output 0 of `txP4`. -/
def txS1 : Transaction :=
  { id := "S1"
    vin := [{ txid := "P", vout := 0, signature := [], pub_key := [5] }]
    vout := [{ value := 4, pub_key_hash := [3] }] }

/-- A transaction spending output 1 of `txP4`. -/
def txS2 : Transaction :=
  { id := "S2"
    vin := [{ txid := "P", vout := 1, signature := [], pub_key := [5] }]
    vout := [{ value := 6, pub_key_hash := [3] }] }

/-- The two-block chain (tip first) whose tip block spends output 0 of the
genesis-block transaction `txP4`. -/
def chainC4 : List Block :=
  [ { timestamp := 1, transactions := [txS1], prev_block_hash := "b1", hash := "b2"
      height := 1, nonce := 0 }
  , { timestamp := 0, transactions := [txP4], prev_block_hash := "", hash := "b1"
      height := 0, nonce := 0 } ]

/-- The newly added block of the C4 scenario, spending output 1 of
`txP4`. -/
def newBlockC4 : Block :=
  { timestamp := 2, transactions := [txS2], prev_block_hash := "b2", hash := "b3"
    height := 2, nonce := 0 }

/-- Genesis coinbase of the C7 scenario: one 10-valued output. -/
def txA7 : Transaction :=
  { id := "A"
    vin := [{ txid := "", vout := -1, signature := [], pub_key := [8] }]
    vout := [{ value := 10, pub_key_hash := [1] }] }

/-- The value transfer of the C7 scenario: spends the 10-valued output of
`txA7` into a 4-valued payment and a 6-valued change output. -/
def txS7 : Transaction :=
  { id := "S"
    vin := [{ txid := "A", vout := 0, signature := [], pub_key := [5] }]
    vout := [{ value := 4, pub_key_hash := [2] }, { value := 6, pub_key_hash := [1] }] }

/-- Second coinbase of the C7 scenario. -/
def txB7 : Transaction :=
  { id := "B"
    vin := [{ txid := "", vout := -1, signature := [], pub_key := [9] }]
    vout := [{ value := 10, pub_key_hash := [9] }] }

/-- The two-block chain (tip first) of the C7 scenario: a transfer plus a
fresh coinbase on top of a genesis coinbase. -/
def chainC7 : List Block :=
  [ { timestamp := 1, transactions := [txS7, txB7], prev_block_hash := "ba", hash := "bb"
      height := 1, nonce := 0 }
  , { timestamp := 0, transactions := [txA7], prev_block_hash := "", hash := "ba"
      height := 0, nonce := 0 } ]

/-- The genesis block Blockchain::create_blockchain mines under `P0` for
address `"A"` at timestamp 0. -/
def genesisB : Block :=
  { timestamp := 0, transactions := [Transaction.new_coinbase P0 [] "A" "GENESIS_COINBASE"]
    prev_block_hash := "", hash := nulHex, height := 0, nonce := 0 }

/-- The state create_blockchain produces from `genesisB`. -/
def st0 : BCState :=
  { store := [(nulHex, genesisB)], last := some nulHex, tip := nulHex }

/-- An orphan block whose parent hash resolves to nothing, as a network
peer may deliver to Blockchain::add_block. -/
def bogusB : Block :=
  { timestamp := 0, transactions := [], prev_block_hash := "xyz", hash := "B"
    height := 5, nonce := 0 }

/-- The state after add_block accepts `bogusB` on top of `st0`: the tip
moves to the orphan. -/
def stBad : BCState :=
  { store := [(nulHex, genesisB), ("B", bogusB)], last := some "B", tip := "B" }

/-- A wallet for the toy scheme `P1`, in which the public and secret key
coincide. -/
def walletW : Wallet := { secret_key := [7], public_key := [7] }

/-- A one-entry UTXO store: transaction `"p"` has one unspent 10-valued
output locked to `walletW` (whose `P1` public-key hash is `[7]`). -/
def dbW : List (String × TXOutputs) := [("p", ⟨[{ value := 10, pub_key_hash := [7] }]⟩)]

/-- A one-block chain carrying the transaction `prevTxC1` (id `"p"`), so
that the store `dbW` is backed by the chain. -/
def chainW : List Block :=
  [ { timestamp := 0, transactions := [prevTxC1], prev_block_hash := "", hash := "h"
      height := 0, nonce := 0 } ]

/-- Deserialisers that always fail, with every byte sequence counted as
valid UTF-8. -/
def D0 : Deser :=
  { addrMsg := fun _ => none, blockMsg := fun _ => none, invMsg := fun _ => none
    getBlocksMsg := fun _ => none, getDataMsg := fun _ => none, txMsg := fun _ => none
    versionMsg := fun _ => none, validUtf8 := fun _ => true }

/-! Helper lemmas. -/

theorem kvGet_kvInsert (m : List (String × α)) (k k2 : String) (v : α) :
    kvGet (kvInsert m k v) k2 = if k2 = k then some v else kvGet m k2 := by
  induction m with
  | nil =>
      by_cases h : k2 = k
      · simp [kvInsert, kvGet, h]
      · have h2 : ¬ k = k2 := fun hh => h hh.symm
        simp [kvInsert, kvGet, h, h2]
  | cons e rest ih =>
      by_cases he : e.1 = k
      · by_cases h2 : k2 = k
        · simp [kvInsert, kvGet, he, h2]
        · have h3 : ¬ k = k2 := fun hh => h2 hh.symm
          have h4 : ¬ e.1 = k2 := by rw [he]; exact h3
          simp [kvInsert, kvGet, he, h2, h3, h4]
      · by_cases h2 : e.1 = k2
        · have hk : ¬ k2 = k := by
            intro hh
            exact he (h2.trans hh)
          simp [kvInsert, kvGet, he, h2, hk]
        · have ih2 := ih
          simp only [kvGet] at ih2
          simp [kvInsert, kvGet, he, h2, ih2]

theorem run_proof_of_work_spec (P : Prim) :
    ∀ fuel b b2, run_proof_of_work P fuel b = some b2 →
      Block.validate P b2 = true ∧ b2.hash = P.sha256hex (prepare_hash_data P b2) ∧
      b2.prev_block_hash = b.prev_block_hash ∧ b2.height = b.height ∧
      b2.transactions = b.transactions ∧ b2.timestamp = b.timestamp := by
  intro fuel
  induction fuel with
  | zero => intro b b2 h; exact absurd h (by simp [run_proof_of_work])
  | succ n ih =>
      intro b b2 h
      unfold run_proof_of_work at h
      by_cases hb : b.validate P = true
      · rw [if_pos hb] at h
        have hb2 : b2 = { b with hash := P.sha256hex (prepare_hash_data P b) } :=
          (Option.some.inj h).symm
        subst hb2
        exact ⟨hb, rfl, rfl, rfl, rfl, rfl⟩
      · rw [if_neg hb] at h
        obtain ⟨h1, h2, h3, h4, h5, h6⟩ := ih _ _ h
        exact ⟨h1, h2, h3, h4, h5, h6⟩

/-! Claim C2. -/

/-- C2: the claim says the mining loop terminates whenever the clock
succeeds. It does not: for every digest function whose output consists of
hex-digit characters (as the lowercase hex rendering of SHA-256 does),
`Block::validate` compares a hex prefix against TARGET_LEN NUL characters
and is identically false, so `run_proof_of_work` never returns a block for
any fuel bound. -/
theorem mining_never_terminates (P : Prim)
    (hhex : ∀ d c, c ∈ (P.sha256hex d).data → c ∈ hexDigits.data) :
    ∀ fuel b, run_proof_of_work P fuel b = none := by
  have hval : ∀ b : Block, b.validate P = false := by
    intro b
    by_contra hne
    have hb : b.validate P = true := by
      revert hne; cases b.validate P <;> simp
    have hstr : String.mk ((P.sha256hex (prepare_hash_data P b)).data.take TARGET_LEN) =
        nulTarget := by
      have := (beq_iff_eq (a := String.mk ((P.sha256hex (prepare_hash_data P b)).data.take TARGET_LEN)) (b := nulTarget)).1
      exact this hb
    have hlist : (P.sha256hex (prepare_hash_data P b)).data.take TARGET_LEN =
        List.replicate TARGET_LEN (Char.ofNat 0) := by
      have := congrArg String.data hstr
      simpa [nulTarget] using this
    have hmem : Char.ofNat 0 ∈ (P.sha256hex (prepare_hash_data P b)).data.take TARGET_LEN := by
      rw [hlist]
      exact List.mem_replicate.2 ⟨by decide, rfl⟩
    have hmem2 : Char.ofNat 0 ∈ (P.sha256hex (prepare_hash_data P b)).data :=
      List.take_subset TARGET_LEN _ hmem
    have := hhex _ _ hmem2
    revert this
    decide
  intro fuel
  induction fuel with
  | zero => intro b; rfl
  | succ n ih =>
      intro b
      unfold run_proof_of_work
      rw [if_neg (by simp [hval b])]
      exact ih _

/-- C2 witness: under concrete primitives whose digest is 64 hex `a`
characters, mining a concrete block with fuel 5 produces nothing. -/
theorem mining_never_terminates_witness : run_proof_of_work P2 5 bogusB = none :=
  mining_never_terminates P2
    (by
      intro d c hc
      have hc2 : c ∈ List.replicate 64 (Char.ofNat 97) := by simpa [P2] using hc
      have := List.eq_of_mem_replicate hc2
      subst this
      decide)
    5 bogusB

/-! Claim C3. -/

/-- C3: every block Block::new returns satisfies the proof-of-work
predicate exactly as coded (the first TARGET_LEN characters of the
lowercase hex digest equal the TARGET_LEN-NUL string), and its stored
`hash` is the full hex digest of the same image. -/
theorem block_new_satisfies_pow (P : Prim) (txs : List Transaction) (prev : String)
    (height : Int) (ts fuel : Nat) (b : Block)
    (h : Block.new P txs prev height ts fuel = some b) :
    Block.validate P b = true ∧ b.hash = P.sha256hex (prepare_hash_data P b) :=
  ⟨(run_proof_of_work_spec P fuel _ b h).1, (run_proof_of_work_spec P fuel _ b h).2.1⟩

/-- C3 witness: under `P0` (all-NUL digest) mining the genesis block
succeeds at fuel 1 and the theorem's conclusions evaluate as stated. -/
theorem block_new_satisfies_pow_witness :
    Block.new P0 [Transaction.new_coinbase P0 [] "A" "GENESIS_COINBASE"] "" 0 0 1 =
      some genesisB ∧
    (Block.validate P0 genesisB = true ∧
      genesisB.hash = P0.sha256hex (prepare_hash_data P0 genesisB)) :=
  ⟨by decide,
   block_new_satisfies_pow P0 [Transaction.new_coinbase P0 [] "A" "GENESIS_COINBASE"] "" 0 0 1
     genesisB (by decide)⟩

/-! Claim C9. -/

/-- C9: bytes_to_cmd panics (models as `none`) exactly on buffers shorter
than CMD_LEN = 12 bytes, because it slices `bytes[0..CMD_LEN]`
unconditionally; on buffers of at least 12 bytes it always returns a
`Result` (a message or an error). -/
theorem bytes_to_cmd_total_iff_long (D : Deser) (bytes : List Nat) :
    (bytes.length < CMD_LEN → bytes_to_cmd D bytes = none) ∧
    (CMD_LEN ≤ bytes.length → (bytes_to_cmd D bytes).isSome = true) := by
  constructor
  · intro h
    unfold bytes_to_cmd
    rw [if_pos h]
  · intro h
    unfold bytes_to_cmd
    rw [if_neg (by omega)]
    simp

/-- C9 witness: a 3-byte buffer panics; a 12-byte buffer returns a
result. -/
theorem bytes_to_cmd_total_iff_long_witness :
    bytes_to_cmd D0 [0, 0, 0] = none ∧
      (bytes_to_cmd D0 (List.replicate 12 0)).isSome = true :=
  ⟨(bytes_to_cmd_total_iff_long D0 [0, 0, 0]).1 (by decide),
   (bytes_to_cmd_total_iff_long D0 (List.replicate 12 0)).2 (by decide)⟩

/-! Claim C10. -/

/-- C10: with a non-empty memo, new_coinbase never reads the random
bytes: two calls with the same recipient and memo but different randomness
produce identical transactions (ids included), and the single input's
`pub_key` is the memo bytes followed by 32 zero bytes. -/
theorem new_coinbase_deterministic (P : Prim) (toAddr memo : String) (rng1 rng2 : List Nat)
    (h : memo ≠ "") :
    Transaction.new_coinbase P rng1 toAddr memo = Transaction.new_coinbase P rng2 toAddr memo ∧
    (Transaction.new_coinbase P rng1 toAddr memo).vin =
      [{ txid := "", vout := -1, signature := []
         pub_key := strBytes memo ++ List.replicate 32 0 }] := by
  unfold Transaction.new_coinbase
  simp [h]

/-- C10 witness: concrete recipient, memo `"m"`, and two different
randomness draws. -/
theorem new_coinbase_deterministic_witness :
    Transaction.new_coinbase P2 [1, 2] "A" "m" = Transaction.new_coinbase P2 [9] "A" "m" :=
  (new_coinbase_deterministic P2 "A" "m" [1, 2] [9] (by decide)).1

/-! Claim C5. -/

/-- C5: add_block on a duplicate hash returns the state unchanged (store,
`LAST`, and tip); on a fresh block it inserts the block and moves `LAST`
and the tip to it exactly when its height exceeds the pre-state best
height, leaving them unchanged otherwise. -/
theorem add_block_frame (st : BCState) (b : Block) :
    ((kvGet st.store b.hash).isSome = true → add_block st b = some st) ∧
    (∀ lh, kvGet st.store b.hash = none → get_best_height st = some lh →
      add_block st b =
        some (if lh < b.height
          then { store := kvInsert st.store b.hash b, last := some b.hash, tip := b.hash }
          else { st with store := kvInsert st.store b.hash b })) := by
  constructor
  · intro h
    unfold add_block
    rw [if_pos h]
  · intro lh hfresh hbest
    unfold add_block
    rw [if_neg (by simp [hfresh])]
    have hbest1 : get_best_height { st with store := kvInsert st.store b.hash b } = some lh := by
      unfold get_best_height at hbest ⊢
      cases hl : st.last with
      | none => simpa [hl] using hbest
      | some h0 =>
          rw [hl] at hbest
          have hne : h0 ≠ b.hash := by
            intro he
            rw [he] at hbest
            simp [hfresh] at hbest
          simp only [kvGet_kvInsert, if_neg hne]
          exact hbest
    simp only [hbest1]
    by_cases hh : lh < b.height
    · rw [if_pos (by exact hh), if_pos hh]
    · rw [if_neg (by exact hh), if_neg hh]

/-- C5 witness: on the concrete genesis state, re-adding the genesis block
is a no-op, and adding a fresh higher block moves `LAST` and the tip. -/
theorem add_block_frame_witness :
    add_block st0 genesisB = some st0 ∧ add_block st0 bogusB = some stBad :=
  ⟨(add_block_frame st0 genesisB).1 (by decide),
   ((add_block_frame st0 bogusB).2 0 (by decide) (by decide)).trans (by decide)⟩

/-! Claim C1. -/

/-- C1: the claim says sign-then-verify returns true. It does not: the
code passes the input's `pub_key` as the signature argument of
`ed25519::verify`, ignoring the stored signature. Under the toy scheme
`P1` — which is correct, as the first conjunct evaluates — signing the
concrete non-coinbase transaction `txC1` succeeds and stores the valid
signature, yet Transaction::verify on the signed transaction with the same
`prev_TXs` returns false. -/
theorem verify_rejects_signed_transaction :
    P1.edVerify "D" [7] (P1.edSignature "D" [7]) = true ∧
    Transaction.sign P1 txC1 [7] prevsC1 = some (Except.ok txC1s) ∧
    Transaction.verify P1 txC1s prevsC1 = some (Except.ok false) := by
  refine ⟨by decide, by decide, by decide⟩

/-! Claim C4. -/

/-- C4: the claim says update(block) on a store consistent with the chain
matches a full reindex after appending the block. It does not: update
drops the stored output at the position equal to `vin.vout` in the
already-filtered remaining list, so after the partial spend in `chainC4`
the spend of original output 1 of `txP4` removes nothing — the updated
store keeps `"P"` with the 6-valued output while the reindexed store drops
the key. -/
theorem update_differs_from_reindex :
    UTXOSet.update (UTXOSet.reindex chainC4) newBlockC4 =
      some [("S1", ⟨[⟨4, [3]⟩]⟩), ("P", ⟨[⟨6, [1]⟩]⟩), ("S2", ⟨[⟨6, [3]⟩]⟩)] ∧
    kvGet (UTXOSet.reindex (newBlockC4 :: chainC4)) "P" = none := by
  refine ⟨by decide, by decide⟩

/-! Claim C7, counterexample. -/

/-- C7 counterexample: on the concrete chain `chainC7` (a transfer plus a
fresh coinbase on top of a genesis coinbase) the reindexed UTXO values sum
to 20 while the claimed right-hand side (coinbase outputs minus spent
values) is 10. -/
theorem utxo_sum_not_coinbase_minus_spent :
    ¬ sumStore (UTXOSet.reindex chainC7) = sumCoinbaseOuts chainC7 - sumSpent chainC7 := by
  decide

/-! Claim C8, counterexample. -/

/-- C8 counterexample: the state `stBad` is reachable (create the chain,
then let add_block accept the orphan `bogusB` from the network, which
re-tips because 5 > 0), yet iterating from its tip yields only the orphan:
the walk ends at height 5 with `prev_block_hash = "xyz"`, not at a
height-0 genesis with an empty previous hash. -/
theorem reachable_chain_iteration_not_good :
    Reach P0 stBad ∧ goodChainB (chainOf stBad) = false :=
  ⟨Reach.add st0 bogusB stBad (Reach.create [] "A" 0 1 st0 (by decide)) (by decide), by decide⟩

/-! Claim C8, amended direction: KV lemmas, store well-formedness, and
the iteration property. -/

theorem kvGet_cons (e : String × α) (rest : List (String × α)) (k : String) :
    kvGet (e :: rest) k = if e.1 = k then some e.2 else kvGet rest k := by
  by_cases h : e.1 = k <;> simp [kvGet, h]

theorem kvGet_some_mem (m : List (String × α)) (k : String) (v : α)
    (h : kvGet m k = some v) : (k, v) ∈ m := by
  induction m with
  | nil => simp [kvGet] at h
  | cons e rest ih =>
      rw [kvGet_cons] at h
      by_cases he : e.1 = k
      · rw [if_pos he] at h
        have hv := Option.some.inj h
        have he2 : e = (k, v) := by
          cases e
          simp only at he hv
          simp [he, hv]
        rw [← he2]
        exact List.mem_cons_self e rest
      · rw [if_neg he] at h
        exact List.mem_cons_of_mem _ (ih h)

theorem mem_kvInsert (m : List (String × α)) (k : String) (v : α) :
    ∀ e ∈ kvInsert m k v, e = (k, v) ∨ e ∈ m := by
  induction m with
  | nil =>
      intro e he
      simp [kvInsert] at he
      exact Or.inl he
  | cons e0 rest ih =>
      intro e he
      by_cases h0 : e0.1 = k
      · simp only [kvInsert, beq_iff_eq, if_pos h0] at he
        rcases List.mem_cons.1 he with he | he
        · exact Or.inl he
        · exact Or.inr (List.mem_cons_of_mem _ he)
      · simp only [kvInsert, beq_iff_eq, if_neg h0] at he
        rcases List.mem_cons.1 he with he | he
        · exact Or.inr (he ▸ List.mem_cons_self e0 rest)
        · rcases ih e he with h | h
          · exact Or.inl h
          · exact Or.inr (List.mem_cons_of_mem _ h)

theorem length_kvInsert_fresh (m : List (String × α)) (k : String) (v : α)
    (h : kvGet m k = none) : (kvInsert m k v).length = m.length + 1 := by
  induction m with
  | nil => rfl
  | cons e rest ih =>
      rw [kvGet_cons] at h
      by_cases he : e.1 = k
      · rw [if_pos he] at h
        exact absurd h (by simp)
      · rw [if_neg he] at h
        simp [kvInsert, he, ih h]

theorem mem_kvInsert_pair (m : List (String × α)) (k0 : String) (v : α) (k : String) (x : α)
    (h : (k, x) ∈ kvInsert m k0 v) : (k = k0 ∧ x = v) ∨ (k, x) ∈ m := by
  rcases mem_kvInsert m k0 v (k, x) h with he | he
  · injection he with h1 h2
    exact Or.inl ⟨h1, h2⟩
  · exact Or.inr he

theorem add_block_inv (st : BCState) (b : Block) (st2 : BCState)
    (h : add_block st b = some st2) :
    ((kvGet st.store b.hash).isSome = true ∧ st2 = st) ∨
    (kvGet st.store b.hash = none ∧ ∃ lh,
      get_best_height { st with store := kvInsert st.store b.hash b } = some lh ∧
      ((lh < b.height ∧
          st2 = { store := kvInsert st.store b.hash b, last := some b.hash, tip := b.hash }) ∨
       (¬ lh < b.height ∧ st2 = { st with store := kvInsert st.store b.hash b }))) := by
  unfold add_block at h
  by_cases hd : (kvGet st.store b.hash).isSome = true
  · rw [if_pos hd] at h
    exact Or.inl ⟨hd, (Option.some.inj h).symm⟩
  · rw [if_neg hd] at h
    have hfresh : kvGet st.store b.hash = none := by
      cases hk : kvGet st.store b.hash with
      | none => rfl
      | some x => rw [hk] at hd; simp at hd
    refine Or.inr ⟨hfresh, ?_⟩
    cases hg : get_best_height { st with store := kvInsert st.store b.hash b } with
    | none => simp [hg] at h
    | some lh =>
        simp only [hg] at h
        refine ⟨lh, rfl, ?_⟩
        by_cases hh : lh < b.height
        · rw [if_pos (show b.height > lh from hh)] at h
          exact Or.inl ⟨hh, (Option.some.inj h).symm⟩
        · rw [if_neg (show ¬ b.height > lh from hh)] at h
          exact Or.inr ⟨hh, (Option.some.inj h).symm⟩

theorem storeWF_insert (store : List (String × Block)) (hWF : StoreWF store) (b : Block)
    (hfresh : kvGet store b.hash = none) (hbne : b.hash ≠ "")
    (hgood : b.height = 0 ∧ b.prev_block_hash = "" ∨
      0 < b.height ∧ ∃ pb, kvGet store b.prev_block_hash = some pb ∧
        pb.height = b.height - 1) :
    StoreWF (kvInsert store b.hash b) := by
  have hkeep : ∀ k x, kvGet store k = some x → kvGet (kvInsert store b.hash b) k = some x := by
    intro k x hk
    have hne : k ≠ b.hash := by
      intro he
      rw [he, hfresh] at hk
      cases hk
    rw [kvGet_kvInsert, if_neg hne]
    exact hk
  have hlen : (kvInsert store b.hash b).length = store.length + 1 :=
    length_kvInsert_fresh store b.hash b hfresh
  refine ⟨?_, ?_, ?_, ?_, ?_, ?_⟩
  · intro k bb he
    rcases mem_kvInsert_pair store b.hash b k bb he with ⟨rfl, rfl⟩ | he2
    · rfl
    · exact hWF.keyed k bb he2
  · intro k bb he
    rcases mem_kvInsert_pair store b.hash b k bb he with ⟨rfl, rfl⟩ | he2
    · exact hbne
    · exact hWF.hashNe k bb he2
  · intro k bb he
    rcases mem_kvInsert_pair store b.hash b k bb he with ⟨rfl, rfl⟩ | he2
    · rcases hgood with ⟨h0, -⟩ | ⟨hp, -⟩
      · simp [h0]
      · exact le_of_lt hp
    · exact hWF.heightNonneg k bb he2
  · intro k bb he
    rw [hlen]
    rcases mem_kvInsert_pair store b.hash b k bb he with ⟨rfl, rfl⟩ | he2
    · rcases hgood with ⟨h0, -⟩ | ⟨hp, pb, hpb, hpbh⟩
      · rw [h0]
        push_cast
        omega
      · obtain ⟨k2, hk2⟩ : ∃ k2, (k2, pb) ∈ store := ⟨_, kvGet_some_mem store _ pb hpb⟩
        have := hWF.heightBound k2 pb hk2
        push_cast at this ⊢
        omega
    · have := hWF.heightBound k bb he2
      push_cast at this ⊢
      omega
  · intro k bb he h0
    rcases mem_kvInsert_pair store b.hash b k bb he with ⟨rfl, rfl⟩ | he2
    · rcases hgood with ⟨-, hpr⟩ | ⟨hp, -⟩
      · exact hpr
      · exact absurd h0 (by omega)
    · exact hWF.genesisPrev k bb he2 h0
  · intro k bb he hp
    rcases mem_kvInsert_pair store b.hash b k bb he with ⟨rfl, rfl⟩ | he2
    · rcases hgood with ⟨h0, -⟩ | ⟨-, pb, hpb, hpbh⟩
      · exact absurd hp (by omega)
      · exact ⟨pb, hkeep _ _ hpb, hpbh⟩
    · obtain ⟨pb, hpb, hpbh⟩ := hWF.parent k bb he2 hp
      exact ⟨pb, hkeep _ _ hpb, hpbh⟩

theorem create_blockchain_WF (P : Prim) (hne : ∀ d, P.sha256hex d ≠ "")
    (rng : List Nat) (address : String) (ts fuel : Nat) (st : BCState)
    (h : create_blockchain P rng address ts fuel = some st) : WFState st := by
  unfold create_blockchain new_genesis_block at h
  cases hb : Block.new P [Transaction.new_coinbase P rng address "GENESIS_COINBASE"] "" 0 ts fuel with
  | none => rw [hb] at h; exact absurd h (by simp)
  | some g =>
      rw [hb] at h
      have hst : st = { store := [(g.hash, g)], last := some g.hash, tip := g.hash } := by
        simpa using h.symm
      obtain ⟨hval, hhash, hprev, hheight, -, -⟩ := run_proof_of_work_spec P fuel _ g hb
      have hheight0 : g.height = 0 := by simpa using hheight
      have hprev0 : g.prev_block_hash = "" := by simpa using hprev
      have hgne : g.hash ≠ "" := by rw [hhash]; exact hne _
      subst hst
      refine ⟨⟨?_, ?_, ?_, ?_, ?_, ?_⟩, rfl, ⟨g, by simp [kvGet]⟩⟩ <;> intro k bb he <;>
        simp only [List.mem_singleton, Prod.mk.injEq] at he <;>
        obtain ⟨rfl, rfl⟩ := he
      · rfl
      · exact hgne
      · simp [hheight0]
      · simp [hheight0]
      · intro h0
        exact hprev0
      · intro hp
        rw [hheight0] at hp
        exact absurd hp (by omega)

theorem mine_block_WF (P : Prim) (hne : ∀ d, P.sha256hex d ≠ "") (st : BCState)
    (hWF : WFState st) (txs : List Transaction) (ts fuel : Nat) (st2 : BCState) (b : Block)
    (h : mine_block P st txs ts fuel = some (Except.ok (st2, b)))
    (hfresh : kvGet st.store b.hash = none) : WFState st2 := by
  unfold mine_block at h
  cases hv : verifyAllTxs P (chainOf st) txs with
  | none => simp [hv] at h
  | some r =>
      cases r with
      | error e => simp [hv] at h
      | ok u =>
          cases u
          simp only [hv] at h
          cases hl : st.last with
          | none => simp [hl] at h
          | some last_hash =>
              simp only [hl] at h
              cases hbest : get_best_height st with
              | none => simp [hbest] at h
              | some best =>
                  simp only [hbest] at h
                  cases hbn : Block.new P txs last_hash (best + 1) ts fuel with
                  | none => simp [hbn] at h
                  | some b0 =>
                      simp only [hbn, Option.some.injEq, Except.ok.injEq,
                        Prod.mk.injEq] at h
                      obtain ⟨hst2, hbb⟩ := h
                      subst hbb
                      subst hst2
                      have hlast : last_hash = st.tip := by
                        have hx := hWF.lastTip
                        rw [hl] at hx
                        exact Option.some.inj hx
                      obtain ⟨tb, htb, htbh⟩ : ∃ tb, kvGet st.store st.tip = some tb ∧
                          tb.height = best := by
                        unfold get_best_height at hbest
                        rw [hl, hlast] at hbest
                        obtain ⟨tb, h1, h2⟩ := Option.map_eq_some'.1 hbest
                        exact ⟨tb, h1, h2⟩
                      obtain ⟨-, hhash, hprev, hheight, -, -⟩ :=
                        run_proof_of_work_spec P fuel _ b0 hbn
                      have hheight1 : b0.height = best + 1 := by simpa using hheight
                      have hprev1 : b0.prev_block_hash = last_hash := by simpa using hprev
                      have hbne : b0.hash ≠ "" := by rw [hhash]; exact hne _
                      have htbm := kvGet_some_mem _ _ _ htb
                      have htbnn := hWF.storeWF.heightNonneg _ _ htbm
                      have hgood : b0.height = 0 ∧ b0.prev_block_hash = "" ∨
                          0 < b0.height ∧ ∃ pb, kvGet st.store b0.prev_block_hash = some pb ∧
                            pb.height = b0.height - 1 := by
                        right
                        refine ⟨by omega, tb, ?_, by omega⟩
                        rw [hprev1, hlast]
                        exact htb
                      refine ⟨storeWF_insert st.store hWF.storeWF b0 hfresh hbne hgood, rfl,
                        ⟨b0, ?_⟩⟩
                      rw [kvGet_kvInsert, if_pos rfl]

theorem add_block_WF (st : BCState) (hWF : WFState st) (b : Block) (st2 : BCState)
    (hbne : b.hash ≠ "")
    (hgood : b.height = 0 ∧ b.prev_block_hash = "" ∨
      0 < b.height ∧ ∃ pb, kvGet st.store b.prev_block_hash = some pb ∧
        pb.height = b.height - 1)
    (h : add_block st b = some st2) : WFState st2 := by
  rcases add_block_inv st b st2 h with ⟨hd, rfl⟩ | ⟨hfresh, lh, hbest, hcase⟩
  · exact hWF
  · have hstore := storeWF_insert st.store hWF.storeWF b hfresh hbne hgood
    rcases hcase with ⟨hlt, rfl⟩ | ⟨hge, rfl⟩
    · exact ⟨hstore, rfl, ⟨b, by rw [kvGet_kvInsert, if_pos rfl]⟩⟩
    · obtain ⟨tb, htb⟩ := hWF.tipIn
      have hne2 : st.tip ≠ b.hash := by
        intro he
        rw [he, hfresh] at htb
        cases htb
      exact ⟨hstore, hWF.lastTip, ⟨tb, by rw [kvGet_kvInsert, if_neg hne2]; exact htb⟩⟩

theorem reachW_WF (P : Prim) (hne : ∀ d, P.sha256hex d ≠ "") :
    ∀ st, ReachW P st → WFState st := by
  intro st h
  induction h with
  | create rng address ts fuel st hc => exact create_blockchain_WF P hne rng address ts fuel st hc
  | mine st txs ts fuel st2 b hr hm hf ih => exact mine_block_WF P hne st ih txs ts fuel st2 b hm hf
  | add st b st2 hr hbne hgood ha ih => exact add_block_WF st ih b st2 hbne hgood ha

theorem kvGet_empty_none (store : List (String × Block)) (hWF : StoreWF store) :
    kvGet store "" = none := by
  cases hk : kvGet store "" with
  | none => rfl
  | some x =>
      have hm := kvGet_some_mem _ _ _ hk
      have h1 := hWF.keyed _ _ hm
      have h2 := hWF.hashNe _ _ hm
      exact absurd h1.symm h2

theorem iterChain_nil_of_none (store : List (String × Block)) (t : String)
    (h : kvGet store t = none) : ∀ fuel, iterChain store t fuel = [] := by
  intro fuel
  cases fuel with
  | zero => rfl
  | succ m => simp [iterChain, h]

theorem iterChain_good (store : List (String × Block)) (hWF : StoreWF store) :
    ∀ n t b, kvGet store t = some b → b.height.toNat = n →
      ∀ fuel, n + 1 ≤ fuel → goodChainB (iterChain store t fuel) = true := by
  intro n
  induction n with
  | zero =>
      intro t b hget hh fuel hfuel
      obtain ⟨fuel2, rfl⟩ : ∃ m, fuel = m + 1 := ⟨fuel - 1, by omega⟩
      have hmem := kvGet_some_mem _ _ _ hget
      have hnn := hWF.heightNonneg _ _ hmem
      have h0 : b.height = 0 := by omega
      have hprev : b.prev_block_hash = "" := hWF.genesisPrev _ _ hmem h0
      rw [show iterChain store t (fuel2 + 1) = [b] by
        simp [iterChain, hget, hprev,
          iterChain_nil_of_none store "" (kvGet_empty_none store hWF) fuel2]]
      simp [goodChainB, h0, hprev]
  | succ n ih =>
      intro t b hget hh fuel hfuel
      obtain ⟨fuel2, rfl⟩ : ∃ m, fuel = m + 1 := ⟨fuel - 1, by omega⟩
      have hmem := kvGet_some_mem _ _ _ hget
      have hnn := hWF.heightNonneg _ _ hmem
      have hpos : 0 < b.height := by omega
      obtain ⟨pb, hpb, hpbh⟩ := hWF.parent _ _ hmem hpos
      have hpmem := kvGet_some_mem _ _ _ hpb
      have hpnn := hWF.heightNonneg _ _ hpmem
      have hpbn : pb.height.toNat = n := by omega
      have htail := ih b.prev_block_hash pb hpb hpbn fuel2 (by omega)
      obtain ⟨fuel3, rfl⟩ : ∃ m, fuel2 = m + 1 := ⟨fuel2 - 1, by omega⟩
      obtain ⟨rest, hrest⟩ : ∃ rest,
          iterChain store b.prev_block_hash (fuel3 + 1) = pb :: rest :=
        ⟨iterChain store pb.prev_block_hash fuel3, by simp [iterChain, hpb]⟩
      rw [show iterChain store t (fuel3 + 1 + 1) = b :: pb :: rest by
        simp [iterChain, hget]
        exact hrest]
      rw [hrest] at htail
      simp only [goodChainB, Bool.and_eq_true, decide_eq_true_eq] at htail ⊢
      refine ⟨by omega, htail⟩

/-- C8, amended: on every chain state reachable through create_blockchain,
mine_block, and add_block — where each mined block's hash is fresh and
each block handed to add_block has a non-empty hash and either is a
genesis block or extends a stored parent of height one less — iterating
from the tip towards genesis (for any digest without empty outputs) yields
blocks whose heights strictly decrease and the walk ends at a height-0
block with an empty prev_block_hash. -/
theorem reachW_iteration_good (P : Prim) (hne : ∀ d, P.sha256hex d ≠ "")
    (st : BCState) (h : ReachW P st) : goodChainB (chainOf st) = true := by
  have hWF := reachW_WF P hne st h
  obtain ⟨tb, htb⟩ := hWF.tipIn
  have hmem := kvGet_some_mem _ _ _ htb
  have hbound := hWF.storeWF.heightBound _ _ hmem
  have hnn := hWF.storeWF.heightNonneg _ _ hmem
  exact iterChain_good st.store hWF.storeWF tb.height.toNat st.tip tb htb rfl
    (st.store.length + 1) (by omega)

/-- C8 witness: the freshly created chain state `st0` is well-formed
reachable and its tip-to-genesis walk satisfies the property. -/
theorem reachW_iteration_good_witness : goodChainB (chainOf st0) = true :=
  reachW_iteration_good P0 (fun d => by show nulHex ≠ ""; decide) st0
    (ReachW.create [] "A" 0 1 st0 (by decide))

/-! Claim C7, amended direction: value accounting of find_UTXO. -/

theorem refsJoin_cons (t : Transaction) (ts : List Transaction) :
    refsJoin (t :: ts) = refsOfTx t ++ refsJoin ts := by
  simp [refsJoin]

theorem refsJoin_append (a b : List Transaction) :
    refsJoin (a ++ b) = refsJoin a ++ refsJoin b := by
  simp [refsJoin]

theorem sum_map_sub (l : List α) (f g : α → Int) :
    (l.map fun x => f x - g x).sum = (l.map f).sum - (l.map g).sum := by
  induction l with
  | nil => simp
  | cons a t ih => simp [ih]; ring

theorem sum_filter_split (l : List α) (f : α → Int) (p q : α → Bool) :
    ((l.filter p).map f).sum =
      ((l.filter fun x => p x && q x).map f).sum +
      ((l.filter fun x => p x && !q x).map f).sum := by
  induction l with
  | nil => simp
  | cons a t ih =>
      by_cases hp : p a = true <;> by_cases hq : q a = true <;>
        simp [hp, hq, ih] <;> ring

theorem sumStore_cons (e : String × TXOutputs) (rest : List (String × TXOutputs)) :
    sumStore (e :: rest) = sumOuts e.2.outputs + sumStore rest := by
  simp [sumStore]

theorem sumStore_pushUTXO (u : List (String × TXOutputs)) (k : String) (o : TXOutput) :
    sumStore (pushUTXO u k o) = sumStore u + o.value := by
  induction u with
  | nil => simp [pushUTXO, sumStore, sumOuts]
  | cons e rest ih =>
      by_cases h : e.1 = k
      · simp [pushUTXO, h, sumStore, sumOuts]
        ring
      · simp only [pushUTXO, beq_iff_eq, if_neg h]
        rw [sumStore_cons, sumStore_cons, ih]
        ring

theorem sumStore_outLoop (spent : List (String × List Int)) (k : String) :
    ∀ (ps : List (Nat × TXOutput)) (u : List (String × TXOutputs)),
      sumStore (ps.foldl
        (fun u2 p => if spentContains spent k (p.1 : Int) then u2 else pushUTXO u2 k p.2) u) =
      sumStore u +
        ((ps.filter fun p => !spentContains spent k (p.1 : Int)).map fun p => p.2.value).sum := by
  intro ps
  induction ps with
  | nil => intro u; simp
  | cons p rest ih =>
      intro u
      by_cases h : spentContains spent k (p.1 : Int) = true
      · simp [h, ih]
      · have hb : spentContains spent k (p.1 : Int) = false := by
          revert h
          cases spentContains spent k (p.1 : Int) <;> simp
        simp [List.foldl_cons, List.filter_cons, hb, ih, sumStore_pushUTXO]
        ring

theorem spentContains_cons (e : String × List Int) (rest : List (String × List Int))
    (k : String) (v : Int) :
    spentContains (e :: rest) k v = if e.1 = k then e.2.contains v else spentContains rest k v := by
  by_cases h : e.1 = k <;> simp [spentContains, kvGet, h]

theorem pushIdx_cons (e : String × List Int) (rest : List (String × List Int))
    (k0 : String) (v0 : Int) :
    pushIdx (e :: rest) k0 v0 =
      if e.1 = k0 then (e.1, e.2 ++ [v0]) :: rest else e :: pushIdx rest k0 v0 := by
  by_cases h : e.1 = k0 <;> simp [pushIdx, h]

theorem spentMem_pushIdx (m : List (String × List Int)) (k0 k : String) (v0 v : Int) :
    spentContains (pushIdx m k0 v0) k v = true ↔
      (spentContains m k v = true ∨ (k = k0 ∧ v = v0)) := by
  induction m with
  | nil =>
      rw [show pushIdx [] k0 v0 = [(k0, [v0])] from rfl, spentContains_cons]
      by_cases hk : k0 = k
      · subst hk
        rw [if_pos rfl]
        simp [spentContains, kvGet, List.elem_iff]
      · rw [if_neg hk]
        have hk2 : ¬ (k = k0) := fun h => hk h.symm
        simp [spentContains, kvGet, hk2]
  | cons e rest ih =>
      rw [pushIdx_cons]
      by_cases he : e.1 = k0
      · rw [if_pos he, spentContains_cons, spentContains_cons]
        by_cases hk : e.1 = k
        · have hkk : k = k0 := hk ▸ he
          subst hkk
          rw [if_pos hk, if_pos hk]
          simp [List.elem_iff]
        · rw [if_neg hk, if_neg hk]
          have hk2 : ¬ (k = k0) := fun hh => hk (he ▸ hh ▸ rfl)
          simp [hk2]
      · rw [if_neg he, spentContains_cons, spentContains_cons]
        by_cases hk : e.1 = k
        · have hk2 : ¬ (k = k0) := fun hh => he (hk.trans hh)
          rw [if_pos hk, if_pos hk]
          simp [hk2]
        · rw [if_neg hk, if_neg hk]
          exact ih

theorem spentMem_foldPushIdx (k : String) (v : Int) :
    ∀ (l : List TXInput) (m : List (String × List Int)),
      spentContains (l.foldl (fun s i => pushIdx s i.txid i.vout) m) k v = true ↔
        (spentContains m k v = true ∨ (k, v) ∈ l.map fun i => (i.txid, i.vout)) := by
  intro l
  induction l with
  | nil => simp
  | cons i rest ih =>
      intro m
      simp only [List.foldl_cons, List.map_cons, List.mem_cons]
      rw [ih, spentMem_pushIdx]
      simp [Prod.mk.injEq]
      tauto

theorem spentMem_processTxInputs (tx : Transaction) (m : List (String × List Int))
    (k : String) (v : Int) :
    spentContains (processTxInputs tx m) k v = true ↔
      (spentContains m k v = true ∨ (k, v) ∈ refsOfTx tx) := by
  unfold processTxInputs refsOfTx
  by_cases hc : tx.is_coinbase = true
  · simp [hc]
  · rw [if_neg hc, if_neg hc]
    exact spentMem_foldPushIdx k v tx.vin m

theorem mem_refsTo (rs : List (String × Int)) (k : String) (v : Int) :
    v ∈ refsTo rs k ↔ (k, v) ∈ rs := by
  simp only [refsTo, List.mem_map, List.mem_filter, beq_iff_eq]
  constructor
  · rintro ⟨r, ⟨hr, hk⟩, hv⟩
    have : r = (k, v) := by
      cases r
      simp only at hk hv
      simp [hk, hv]
    exact this ▸ hr
  · intro h
    exact ⟨(k, v), ⟨h, rfl⟩, rfl⟩

theorem refsTo_nodup (rs : List (String × Int)) (k : String) (h : rs.Nodup) :
    (refsTo rs k).Nodup := by
  unfold refsTo
  refine List.Nodup.map_on ?_ (h.filter _)
  intro x hx y hy hxy
  have hxk : x.1 = k := by simpa using (List.mem_filter.1 hx).2
  have hyk : y.1 = k := by simpa using (List.mem_filter.1 hy).2
  cases x
  cases y
  simp only at hxk hyk hxy
  simp [hxk, hyk, hxy]

theorem find_UTXO_flat (chain : List Block) :
    find_UTXO chain = ((allTxs chain).foldl findUTXOStep ([], [])).1 := by
  unfold find_UTXO allTxs
  rw [List.foldl_flatten, List.foldl_map]

theorem enumFrom_filter_fst (outs : List TXOutput) :
    ∀ (n j : Nat) (h : j < outs.length),
      ((outs.enumFrom n).filter fun p => p.1 == n + j) = [(n + j, outs[j])] := by
  induction outs with
  | nil =>
      intro n j h
      exact absurd h (by simp)
  | cons o rest ih =>
      intro n j h
      rw [List.enumFrom_cons]
      cases j with
      | zero =>
          rw [List.filter_cons_of_pos (by simp)]
          have hrest : (rest.enumFrom (n + 1)).filter (fun p => p.1 == n) = [] := by
            rw [List.filter_eq_nil_iff]
            intro p hp
            have hb := (List.mem_enumFrom hp).1
            simp only [beq_iff_eq]
            omega
          simp [hrest]
      | succ j2 =>
          have h2 : j2 < rest.length := by simpa using h
          rw [List.filter_cons_of_neg (by simp)]
          have := ih (n + 1) j2 h2
          rw [show n + 1 + j2 = n + (j2 + 1) by omega] at this
          rw [this]
          simp

theorem enum_map_value (outs : List TXOutput) :
    (outs.enum.map fun p => p.2.value).sum = sumOuts outs := by
  unfold sumOuts
  rw [show (fun p : Nat × TXOutput => p.2.value) = (TXOutput.value ∘ Prod.snd) from rfl,
    ← List.map_map, List.enum_map_snd]

theorem sum_over_spent (outs : List TXOutput) :
    ∀ S : List Int, S.Nodup → (∀ v ∈ S, 0 ≤ v ∧ v.toNat < outs.length) →
      ((outs.enum.filter fun p => decide ((p.1 : Int) ∈ S)).map fun p => p.2.value).sum
        = (S.map (vAt outs)).sum := by
  intro S
  induction S with
  | nil => simp
  | cons v S2 ih =>
      intro hnd hbd
      obtain ⟨hv0, hvlen⟩ := hbd v (List.mem_cons_self v S2)
      have hnotin : v ∉ S2 := (List.nodup_cons.1 hnd).1
      rw [sum_filter_split outs.enum (fun p => p.2.value)
        (fun p => decide ((p.1 : Int) ∈ v :: S2)) (fun p => p.1 == v.toNat)]
      have hfirst : (outs.enum.filter fun p =>
          decide ((p.1 : Int) ∈ v :: S2) && (p.1 == v.toNat)) =
          (outs.enum.filter fun p => p.1 == 0 + v.toNat) := by
        apply List.filter_congr
        intro p hp
        by_cases hpe : p.1 = v.toNat
        · have hcast : (p.1 : Int) = v := by omega
          rw [hcast]
          simp [hpe]
        · simp [hpe]
      have hsecond : (outs.enum.filter fun p =>
          decide ((p.1 : Int) ∈ v :: S2) && !(p.1 == v.toNat)) =
          (outs.enum.filter fun p => decide ((p.1 : Int) ∈ S2)) := by
        apply List.filter_congr
        intro p hp
        by_cases hpe : p.1 = v.toNat
        · have hcast : (p.1 : Int) = v := by omega
          rw [hcast]
          simp [hpe, hnotin]
        · have hne : (p.1 : Int) ≠ v := by omega
          simp [List.mem_cons, hpe, hne]
      rw [hfirst, hsecond, ih hnd.of_cons (fun w hw => hbd w (List.mem_cons_of_mem v hw)),
        show outs.enum = List.enumFrom 0 outs from rfl,
        enumFrom_filter_fst outs 0 v.toNat hvlen]
      have hvAt : vAt outs v = (outs[v.toNat]).value := by
        unfold vAt
        rw [List.getElem?_eq_getElem hvlen]
      simp [hvAt]

theorem sum_unspent (outs : List TXOutput) (S : List Int) (hnd : S.Nodup)
    (hbd : ∀ v ∈ S, 0 ≤ v ∧ v.toNat < outs.length) :
    ((outs.enum.filter fun p => !decide ((p.1 : Int) ∈ S)).map fun p => p.2.value).sum
      = sumOuts outs - (S.map (vAt outs)).sum := by
  have h1 := sum_filter_split outs.enum (fun p => p.2.value) (fun _ => true)
    (fun p => decide ((p.1 : Int) ∈ S))
  simp only [List.filter_true, Bool.true_and] at h1
  rw [enum_map_value, sum_over_spent outs S hnd hbd] at h1
  omega

theorem refsForwardB_suffix (a b : List Transaction) (h : refsForwardB (a ++ b) = true) :
    refsForwardB b = true := by
  induction a with
  | nil => exact h
  | cons t a2 ih =>
      simp only [List.cons_append, refsForwardB, Bool.and_eq_true] at h
      exact ih h.2

theorem refs_targets_in (ts : List Transaction) (h : refsForwardB ts = true) :
    ∀ r ∈ refsJoin ts, ∃ u ∈ ts, u.id = r.1 ∧ 0 ≤ r.2 ∧ r.2.toNat < u.vout.length := by
  induction ts with
  | nil => simp [refsJoin]
  | cons t rest ih =>
      simp only [refsForwardB, Bool.and_eq_true] at h
      intro r hr
      rw [refsJoin_cons] at hr
      rcases List.mem_append.1 hr with hr | hr
      · have h2 := (List.all_eq_true.1 h.1) r hr
        simp only [List.any_eq_true, Bool.and_eq_true, beq_iff_eq, decide_eq_true_eq] at h2
        obtain ⟨u, hu, ⟨hid, h0⟩, hlt⟩ := h2
        exact ⟨u, List.mem_cons_of_mem _ hu, hid, h0, hlt⟩
      · obtain ⟨u, hu, hrest⟩ := ih h.2 r hr
        exact ⟨u, List.mem_cons_of_mem _ hu, hrest⟩

theorem head_not_targeted (t : Transaction) (rest : List Transaction)
    (hfwd : refsForwardB (t :: rest) = true)
    (hids : ((t :: rest).map Transaction.id).Nodup) :
    ∀ r ∈ refsJoin (t :: rest), r.1 ≠ t.id := by
  intro r hr he
  have hnotin : t.id ∉ rest.map Transaction.id := by
    simpa using (List.nodup_cons.1 hids).1
  simp only [refsForwardB, Bool.and_eq_true] at hfwd
  rw [refsJoin_cons] at hr
  rcases List.mem_append.1 hr with hr2 | hr2
  · have h2 := (List.all_eq_true.1 hfwd.1) r hr2
    simp only [List.any_eq_true, Bool.and_eq_true, beq_iff_eq, decide_eq_true_eq] at h2
    obtain ⟨u, hu, ⟨hid, -⟩, -⟩ := h2
    exact hnotin (List.mem_map.2 ⟨u, hu, by rw [hid, he]⟩)
  · obtain ⟨u, hu, hid, -, -⟩ := refs_targets_in rest hfwd.2 r hr2
    exact hnotin (List.mem_map.2 ⟨u, hu, by rw [hid, he]⟩)

theorem findUTXO_fold_sum (L : List Transaction)
    (hids : (L.map Transaction.id).Nodup)
    (hrefs : (refsJoin L).Nodup)
    (hfwd : refsForwardB L = true) :
    ∀ (ts done : List Transaction) (u : List (String × TXOutputs))
      (s : List (String × List Int)),
      L = done ++ ts →
      (∀ k v, spentContains s k v = true ↔ (k, v) ∈ refsJoin done) →
      sumStore ((ts.foldl findUTXOStep (u, s)).1) =
        sumStore u +
          (ts.map fun t => sumOuts t.vout -
            ((refsTo (refsJoin L) t.id).map (vAt t.vout)).sum).sum := by
  intro ts
  induction ts with
  | nil =>
      intro done u s hL hinv
      simp
  | cons t rest ih =>
      intro done u s hL hinv
      have hfwd2 : refsForwardB (done ++ (t :: rest)) = true := by rw [← hL]; exact hfwd
      have hfwdSuffix := refsForwardB_suffix done (t :: rest) hfwd2
      have hidsSuffix : ((t :: rest).map Transaction.id).Nodup := by
        have h2 := hids
        rw [hL, List.map_append] at h2
        exact h2.of_append_right
      have hK1 := head_not_targeted t rest hfwdSuffix hidsSuffix
      have hK2 : refsTo (refsJoin L) t.id = refsTo (refsJoin done) t.id := by
        rw [hL, refsJoin_append]
        unfold refsTo
        rw [List.filter_append, List.map_append]
        have hz : (refsJoin (t :: rest)).filter (fun r => r.1 == t.id) = [] := by
          rw [List.filter_eq_nil_iff]
          intro r hr
          simp only [beq_iff_eq]
          exact hK1 r hr
        rw [hz]
        simp
      have hSmem : ∀ i : Int, i ∈ refsTo (refsJoin L) t.id ↔ (t.id, i) ∈ refsJoin done := by
        intro i
        rw [hK2, mem_refsTo]
      have hpred : ∀ i : Int,
          spentContains s t.id i = decide (i ∈ refsTo (refsJoin L) t.id) := by
        intro i
        by_cases hmem : i ∈ refsTo (refsJoin L) t.id
        · have h2 := (hinv t.id i).2 ((hSmem i).1 hmem)
          simp [h2, hmem]
        · have hfalse : spentContains s t.id i = false := by
            cases hc : spentContains s t.id i with
            | false => rfl
            | true => exact absurd ((hSmem i).2 ((hinv t.id i).1 hc)) hmem
          simp [hfalse, hmem]
      have htmem : t ∈ L := by
        rw [hL]
        exact List.mem_append.2 (Or.inr (List.mem_cons_self t rest))
      have hSbd : ∀ v ∈ refsTo (refsJoin L) t.id, 0 ≤ v ∧ v.toNat < t.vout.length := by
        intro v hv
        have hrefmem : (t.id, v) ∈ refsJoin L := (mem_refsTo _ _ _).1 hv
        obtain ⟨u0, hu0, hid, h0, hlt⟩ := refs_targets_in L hfwd _ hrefmem
        have hu0t : u0 = t := List.inj_on_of_nodup_map hids hu0 htmem (by simpa using hid)
        subst hu0t
        exact ⟨h0, hlt⟩
      have hSnd : (refsTo (refsJoin L) t.id).Nodup := refsTo_nodup _ _ hrefs
      simp only [List.foldl_cons]
      rw [show findUTXOStep (u, s) t = (processTxOutputs s t u, processTxInputs t s) from rfl]
      have hinv2 : ∀ k v, spentContains (processTxInputs t s) k v = true ↔
          (k, v) ∈ refsJoin (done ++ [t]) := by
        intro k v
        rw [spentMem_processTxInputs, hinv, refsJoin_append]
        simp [refsJoin]
      have hL2 : L = (done ++ [t]) ++ rest := by rw [hL]; simp
      rw [ih (done ++ [t]) (processTxOutputs s t u) (processTxInputs t s) hL2 hinv2]
      have hout : sumStore (processTxOutputs s t u) =
          sumStore u + (sumOuts t.vout - ((refsTo (refsJoin L) t.id).map (vAt t.vout)).sum) := by
        unfold processTxOutputs
        rw [sumStore_outLoop s t.id t.vout.enum u]
        congr 1
        have hcong : (t.vout.enum.filter fun p => !spentContains s t.id (p.1 : Int)) =
            (t.vout.enum.filter fun p => !decide ((p.1 : Int) ∈ refsTo (refsJoin L) t.id)) := by
          apply List.filter_congr
          intro p hp
          rw [hpred]
        rw [hcong, sum_unspent t.vout _ hSnd hSbd]
      rw [hout]
      simp only [List.map_cons, List.sum_cons]
      ring

theorem sum_refValue_group :
    ∀ (L2 : List Transaction) (R : List (String × Int)),
      (∀ r ∈ R, ∃ u ∈ L2, u.id = r.1) →
      ((L2.map Transaction.id).Nodup) →
      (R.map (refValue L2)).sum =
        (L2.map fun t => ((refsTo R t.id).map (vAt t.vout)).sum).sum := by
  intro L2
  induction L2 with
  | nil =>
      intro R htarget _
      have hR : R = [] := by
        cases R with
        | nil => rfl
        | cons r R2 =>
            obtain ⟨u, hu, -⟩ := htarget r (List.mem_cons_self r R2)
            exact absurd hu (by simp)
      subst hR
      simp
  | cons t L2t ih =>
      intro R htarget hids
      have hsplit := sum_filter_split R (refValue (t :: L2t)) (fun _ => true)
        (fun r => r.1 == t.id)
      simp only [List.filter_true, Bool.true_and] at hsplit
      rw [hsplit]
      have hfirstval : ∀ r ∈ R.filter (fun r => r.1 == t.id),
          refValue (t :: L2t) r = vAt t.vout r.2 := by
        intro r hr
        have hr1 : r.1 = t.id := by simpa using (List.mem_filter.1 hr).2
        unfold refValue
        rw [List.find?_cons_of_pos _ (by simp [hr1])]
      have hfirst : ((R.filter fun r => r.1 == t.id).map (refValue (t :: L2t))).sum =
          ((refsTo R t.id).map (vAt t.vout)).sum := by
        rw [List.map_congr_left hfirstval]
        unfold refsTo
        rw [List.map_map]
        rfl
      have hL2ids : (L2t.map Transaction.id).Nodup := (List.nodup_cons.1 hids).2
      have hnotin : t.id ∉ L2t.map Transaction.id := (List.nodup_cons.1 hids).1
      have hsecondval : ∀ r ∈ R.filter (fun r => !(r.1 == t.id)),
          refValue (t :: L2t) r = refValue L2t r := by
        intro r hr
        have hr1 : ¬ r.1 = t.id := by simpa using (List.mem_filter.1 hr).2
        unfold refValue
        rw [List.find?_cons_of_neg _ (by simp; exact fun h => hr1 h.symm)]
      have htarget2 : ∀ r ∈ R.filter (fun r => !(r.1 == t.id)), ∃ u ∈ L2t, u.id = r.1 := by
        intro r hr
        obtain ⟨hmem, hne⟩ := List.mem_filter.1 hr
        obtain ⟨u, hu, hid⟩ := htarget r hmem
        rcases List.mem_cons.1 hu with rfl | hu2
        · exact absurd hid.symm (by simpa using hne)
        · exact ⟨u, hu2, hid⟩
      rw [List.map_congr_left hfirstval, List.map_congr_left hsecondval,
        ih _ htarget2 hL2ids]
      simp only [List.map_cons, List.sum_cons]
      have hfirst2 : ((R.filter fun r => r.1 == t.id).map fun r => vAt t.vout r.2).sum =
          ((refsTo R t.id).map (vAt t.vout)).sum := by
        unfold refsTo
        rw [List.map_map]
        rfl
      rw [hfirst2]
      congr 1
      refine congrArg List.sum (List.map_congr_left ?_)
      intro t2 ht2
      have hne2 : t2.id ≠ t.id := by
        intro he
        exact hnotin (List.mem_map.2 ⟨t2, ht2, he⟩)
      have hfe : (R.filter fun r => !(r.1 == t.id)).filter (fun r => r.1 == t2.id) =
          R.filter (fun r => r.1 == t2.id) := by
        rw [List.filter_filter]
        apply List.filter_congr
        intro r hr
        by_cases h : r.1 = t2.id
        · simp [h, hne2]
        · simp [h]
      unfold refsTo
      rw [hfe]

/-- C7, amended: after reindex() the sum of the values over all UTXO
entries equals the sum of the values of ALL outputs in the chain minus the
sum of the values spent by non-coinbase inputs — for chains with distinct
transaction ids, no doubly-referenced `(txid, vout)` pair, and every
reference pointing to a transaction in a strictly older block at a valid
output index. (The claimed right-hand side with only coinbase outputs is
refuted by the counterexample.) -/
theorem reindex_sum_all_minus_spent (chain : List Block)
    (hids : ((allTxs chain).map Transaction.id).Nodup)
    (hrefs : (refsJoin (allTxs chain)).Nodup)
    (hfwd : refsForwardB (allTxs chain) = true) :
    sumStore (UTXOSet.reindex chain) = sumAllOuts chain - sumSpent chain := by
  have hmain := findUTXO_fold_sum (allTxs chain) hids hrefs hfwd (allTxs chain) [] [] []
    rfl (by intro k v; simp [spentContains, kvGet, refsJoin])
  rw [UTXOSet.reindex, find_UTXO_flat, hmain, sum_map_sub]
  have hgroup := sum_refValue_group (allTxs chain) (refsJoin (allTxs chain))
    (fun r hr => (refs_targets_in _ hfwd r hr).imp fun u hu => ⟨hu.1, hu.2.1⟩)
    hids
  unfold sumAllOuts sumSpent
  rw [hgroup]
  simp [sumStore]

/-- C7 witness: the amended identity evaluates on the concrete chain
`chainC7`: 20 = 30 - 10. -/
theorem reindex_sum_all_minus_spent_witness :
    sumStore (UTXOSet.reindex chainC7) = sumAllOuts chainC7 - sumSpent chainC7 :=
  reindex_sum_all_minus_spent chainC7 (by decide) (by decide) (by decide)

/-! Claim C6: Transaction::new_UTXO. -/

theorem find_transaction_id (chain : List Block) (k : String) (t : Transaction)
    (h : find_transaction chain k = Except.ok t) : t.id = k := by
  induction chain with
  | nil => simp [find_transaction] at h
  | cons b rest ih =>
      unfold find_transaction at h
      cases hf : b.transactions.find? (fun t2 => t2.id == k) with
      | some t2 =>
          rw [hf] at h
          have hpred := List.find?_some hf
          simp only [beq_iff_eq] at hpred
          injection h with h2
          rw [← h2]
          exact hpred
      | none =>
          rw [hf] at h
          exact ih h

theorem prevTxFold_ok (chain : List Block) :
    ∀ (l : List TXInput) (m0 : List (String × Transaction)),
      (∀ v ∈ l, ∃ p, find_transaction chain v.txid = Except.ok p) →
      (∀ k p, kvGet m0 k = some p → find_transaction chain k = Except.ok p) →
      ∃ m, prevTxFold chain l m0 = Except.ok m ∧
        (∀ k p, kvGet m k = some p → find_transaction chain k = Except.ok p) ∧
        (∀ k, (kvGet m0 k).isSome = true → (kvGet m k).isSome = true) ∧
        (∀ v ∈ l, (kvGet m v.txid).isSome = true) := by
  intro l
  induction l with
  | nil =>
      intro m0 hfind hm0
      exact ⟨m0, rfl, hm0, fun k hk => hk, by simp⟩
  | cons v rest ih =>
      intro m0 hfind hm0
      obtain ⟨p, hp⟩ := hfind v (List.mem_cons_self v rest)
      have hpid : p.id = v.txid := find_transaction_id chain v.txid p hp
      have hm1 : ∀ k q, kvGet (kvInsert m0 p.id p) k = some q →
          find_transaction chain k = Except.ok q := by
        intro k q hk
        rw [kvGet_kvInsert] at hk
        by_cases hkp : k = p.id
        · rw [if_pos hkp] at hk
          have hq := Option.some.inj hk
          rw [hkp, hpid, ← hq]
          exact hp
        · rw [if_neg hkp] at hk
          exact hm0 k q hk
      obtain ⟨m, hm, hprop, hkeep, hdom⟩ :=
        ih (kvInsert m0 p.id p) (fun w hw => hfind w (List.mem_cons_of_mem _ hw)) hm1
      have hkeep2 : ∀ k, (kvGet m0 k).isSome = true → (kvGet m k).isSome = true := by
        intro k hk
        apply hkeep
        rw [kvGet_kvInsert]
        by_cases hkp : k = p.id
        · simp [hkp]
        · rw [if_neg hkp]
          exact hk
      refine ⟨m, ?_, hprop, hkeep2, ?_⟩
      · unfold prevTxFold
        rw [hp]
        exact hm
      · intro w hw
        rcases List.mem_cons.1 hw with rfl | hw2
        · apply hkeep
          rw [kvGet_kvInsert, if_pos hpid.symm]
          rfl
        · exact hdom w hw2

theorem checkPrevTXs_ok (prevs : List (String × Transaction)) :
    ∀ l : List TXInput,
      (∀ v ∈ l, ∃ p, kvGet prevs v.txid = some p ∧ p.id ≠ "") →
      checkPrevTXs prevs l = some (Except.ok ()) := by
  intro l
  induction l with
  | nil => intro h; rfl
  | cons v rest ih =>
      intro h
      obtain ⟨p, hp, hpne⟩ := h v (List.mem_cons_self v rest)
      unfold checkPrevTXs
      simp only [hp]
      rw [if_neg hpne]
      exact ih fun w hw => h w (List.mem_cons_of_mem _ hw)

theorem map_set_eq (l : List α) (f : α → β) :
    ∀ (i : Nat) (x : α), (∀ y, l[i]? = some y → f x = f y) → (l.set i x).map f = l.map f := by
  induction l with
  | nil =>
      intro i x h
      simp
  | cons a t ih =>
      intro i x h
      cases i with
      | zero =>
          simp only [List.set_cons_zero, List.map_cons]
          rw [h a (by simp)]
      | succ j =>
          simp only [List.set_cons_succ, List.map_cons]
          rw [ih j x fun y hy => h y (by simpa using hy)]

theorem is_coinbase_false_of_txids (tx : Transaction)
    (h : ∀ v ∈ tx.vin, v.txid ≠ "") : tx.is_coinbase = false := by
  unfold Transaction.is_coinbase
  cases hv : tx.vin with
  | nil => simp
  | cons v rest =>
      have hne := h v (hv ▸ List.mem_cons_self v rest)
      simp [hne]

theorem foldl_append_eq (f : α → List β) :
    ∀ (l : List α) (init : List β),
      l.foldl (fun acc x => acc ++ f x) init = init ++ (l.map f).flatten := by
  intro l
  induction l with
  | nil => intro init; simp
  | cons a t ih =>
      intro init
      simp only [List.foldl_cons, List.map_cons, List.flatten_cons]
      rw [ih (init ++ f a)]
      simp

theorem selPairs_eq (m : List (String × List Int)) :
    selPairs m = (m.map fun e => e.2.map fun o => (e.1, o)).flatten := by
  unfold selPairs
  rw [foldl_append_eq]
  simp

theorem mem_selPairs (m : List (String × List Int)) (k : String) (i : Int) :
    (k, i) ∈ selPairs m ↔ ∃ l, (k, l) ∈ m ∧ i ∈ l := by
  rw [selPairs_eq]
  simp only [List.mem_flatten, List.mem_map]
  constructor
  · rintro ⟨L, ⟨e, he, rfl⟩, hL⟩
    obtain ⟨o, ho, hpair⟩ := List.mem_map.1 hL
    injection hpair with h1 h2
    refine ⟨e.2, ?_, h2 ▸ ho⟩
    have he2 : e = (k, e.2) := by
      cases e
      simp only at h1
      simp [h1]
    exact he2 ▸ he
  · rintro ⟨l, hl, hil⟩
    exact ⟨l.map fun o => (k, o), ⟨(k, l), hl, rfl⟩, List.mem_map.2 ⟨i, hil, rfl⟩⟩

theorem pairs_pushIdx_sub (k0 : String) (v0 : Int) (k : String) (i : Int) :
    ∀ m : List (String × List Int), (k, i) ∈ selPairs (pushIdx m k0 v0) →
      (k, i) ∈ selPairs m ∨ (k = k0 ∧ i = v0) := by
  intro m
  induction m with
  | nil =>
      intro h
      rw [mem_selPairs] at h
      obtain ⟨l, hl, hil⟩ := h
      simp only [show pushIdx [] k0 v0 = [(k0, [v0])] from rfl, List.mem_singleton,
        Prod.mk.injEq] at hl
      obtain ⟨rfl, rfl⟩ := hl
      simp only [List.mem_singleton] at hil
      exact Or.inr ⟨rfl, hil⟩
  | cons e rest ih =>
      intro h
      rw [pushIdx_cons] at h
      by_cases he : e.1 = k0
      · rw [if_pos he] at h
        rw [mem_selPairs] at h
        obtain ⟨l, hl, hil⟩ := h
        rcases List.mem_cons.1 hl with heq | hmem
        · injection heq with h1 h2
          subst h2
          rcases List.mem_append.1 hil with hil | hil
          · refine Or.inl ((mem_selPairs _ _ _).2 ⟨e.2, ?_, hil⟩)
            have he3 : (k, e.2) = e := by
              cases e
              simp only at h1
              simp [h1]
            rw [he3]
            exact List.mem_cons_self e rest
          · simp only [List.mem_singleton] at hil
            exact Or.inr ⟨h1.trans he, hil⟩
        · exact Or.inl ((mem_selPairs _ _ _).2 ⟨l, List.mem_cons_of_mem _ hmem, hil⟩)
      · rw [if_neg he] at h
        rw [mem_selPairs] at h
        obtain ⟨l, hl, hil⟩ := h
        rcases List.mem_cons.1 hl with heq | hmem
        · exact Or.inl ((mem_selPairs _ _ _).2 ⟨l, List.mem_cons.2 (Or.inl heq), hil⟩)
        · rcases ih ((mem_selPairs _ _ _).2 ⟨l, hmem, hil⟩) with hold | hnew
          · obtain ⟨l2, hl2, hil2⟩ := (mem_selPairs _ _ _).1 hold
            exact Or.inl ((mem_selPairs _ _ _).2 ⟨l2, List.mem_cons_of_mem _ hl2, hil2⟩)
          · exact Or.inr hnew

theorem inner_spendable_pairs (address : List Nat) (amount : Int) (k0 : String)
    (Q : String → Int → Prop) :
    ∀ (ps : List (Nat × TXOutput)) (acc : Int × List (String × List Int)),
      (∀ k i, (k, i) ∈ selPairs acc.2 → Q k i) →
      (∀ p ∈ ps, Q k0 (p.1 : Int)) →
      ∀ k i, (k, i) ∈ selPairs ((ps.foldl (fun acc2 p =>
        if p.2.is_locked_with_key address && acc2.1 < amount
        then (acc2.1 + p.2.value, pushIdx acc2.2 k0 (p.1 : Int)) else acc2) acc)).2 → Q k i := by
  intro ps
  induction ps with
  | nil =>
      intro acc hacc hps k i h
      exact hacc k i h
  | cons p rest ih =>
      intro acc hacc hps k i h
      simp only [List.foldl_cons] at h
      by_cases hc : (p.2.is_locked_with_key address && decide (acc.1 < amount)) = true
      · rw [if_pos hc] at h
        refine ih _ ?_ (fun w hw => hps w (List.mem_cons_of_mem _ hw)) k i h
        intro k2 i2 h2
        rcases pairs_pushIdx_sub k0 (p.1 : Int) k2 i2 acc.2 h2 with hold | ⟨rfl, rfl⟩
        · exact hacc k2 i2 hold
        · exact hps p (List.mem_cons_self p rest)
      · rw [if_neg hc] at h
        exact ih acc hacc (fun w hw => hps w (List.mem_cons_of_mem _ hw)) k i h

theorem find_spendable_pairs (db : List (String × TXOutputs)) (address : List Nat)
    (amount : Int) :
    ∀ k i, (k, i) ∈ selPairs (UTXOSet.find_spendable_outputs db address amount).2 →
      ∃ e ∈ db, e.1 = k ∧ 0 ≤ i ∧ i.toNat < e.2.outputs.length := by
  unfold UTXOSet.find_spendable_outputs
  suffices hgen : ∀ (dbl : List (String × TXOutputs)) (acc : Int × List (String × List Int)),
      (∀ e ∈ dbl, e ∈ db) →
      (∀ k i, (k, i) ∈ selPairs acc.2 →
        ∃ e ∈ db, e.1 = k ∧ 0 ≤ i ∧ i.toNat < e.2.outputs.length) →
      ∀ k i, (k, i) ∈ selPairs ((dbl.foldl (fun acc e =>
        e.2.outputs.enum.foldl (fun acc2 p =>
          if p.2.is_locked_with_key address && acc2.1 < amount
          then (acc2.1 + p.2.value, pushIdx acc2.2 e.1 (p.1 : Int)) else acc2) acc) acc)).2 →
        ∃ e ∈ db, e.1 = k ∧ 0 ≤ i ∧ i.toNat < e.2.outputs.length by
    intro k i hk
    exact hgen db (0, []) (fun e he => he) (by simp [selPairs]) k i hk
  intro dbl
  induction dbl with
  | nil =>
      intro acc hsub hacc k i h
      exact hacc k i h
  | cons e rest ih =>
      intro acc hsub hacc k i h
      simp only [List.foldl_cons] at h
      refine ih _ (fun e2 he2 => hsub e2 (List.mem_cons_of_mem _ he2)) ?_ k i h
      intro k2 i2 h2
      refine inner_spendable_pairs address amount e.1 _ e.2.outputs.enum acc hacc ?_ k2 i2 h2
      intro p hp
      obtain ⟨hlt, -⟩ := List.mem_enum hp
      refine ⟨e, hsub e (List.mem_cons_self e rest), rfl, Int.natCast_nonneg _, ?_⟩
      omega

theorem signInputs_ok (P : Prim) (sk : List Nat) (prevs : List (String × Transaction)) :
    ∀ (idxs : List Nat) (self c : Transaction),
      (∀ i ∈ idxs, i < self.vin.length) →
      ((c.vin.map fun v => (v.txid, v.vout)) = (self.vin.map fun v => (v.txid, v.vout))) →
      (∀ v ∈ self.vin, ∃ p, kvGet prevs v.txid = some p ∧ 0 ≤ v.vout ∧
        v.vout.toNat < p.vout.length) →
      ∃ out, signInputs P sk prevs self c idxs = some out ∧
        out.vout = self.vout ∧
        ((out.vin.map fun v => (v.txid, v.vout)) = (self.vin.map fun v => (v.txid, v.vout))) ∧
        ((out.vin.map fun v => v.pub_key) = (self.vin.map fun v => v.pub_key)) := by
  intro idxs
  induction idxs with
  | nil =>
      intro self c hbound hkeys hreq
      exact ⟨self, rfl, rfl, rfl, rfl⟩
  | cons i rest ih =>
      intro self c hbound hkeys hreq
      have hi : i < self.vin.length := hbound i (List.mem_cons_self i rest)
      have hlen : c.vin.length = self.vin.length := by
        have h2 := congrArg List.length hkeys
        simpa using h2
      have hci : i < c.vin.length := by omega
      obtain ⟨cv, hcv⟩ : ∃ cv, c.vin[i]? = some cv := ⟨_, List.getElem?_eq_getElem hci⟩
      obtain ⟨sv, hsv⟩ : ∃ sv, self.vin[i]? = some sv := ⟨_, List.getElem?_eq_getElem hi⟩
      have hfield : cv.txid = sv.txid ∧ cv.vout = sv.vout := by
        have h2 := congrArg (fun l => l[i]?) hkeys
        simp only [List.getElem?_map, hcv, hsv, Option.map_some] at h2
        have h3 := Option.some.inj h2
        exact ⟨congrArg Prod.fst h3, congrArg Prod.snd h3⟩
      have hsvmem : sv ∈ self.vin := by
        have h2 := List.getElem?_eq_getElem hi
        rw [hsv] at h2
        have h3 := (Option.some.inj h2).symm
        rw [← h3]
        exact List.getElem_mem hi
      obtain ⟨p, hp, h0, hplen⟩ := hreq sv hsvmem
      have hdig : ∃ c2 d, txDigest P prevs c i = some (c2, d) ∧
          ((c2.vin.map fun v => (v.txid, v.vout)) = (c.vin.map fun v => (v.txid, v.vout))) := by
        unfold txDigest
        simp only [hcv, hfield.1, hp, hfield.2]
        rw [if_neg (by omega : ¬ sv.vout < 0)]
        simp only [List.getElem?_eq_getElem hplen]
        refine ⟨_, _, rfl, ?_⟩
        rw [List.set_set]
        refine map_set_eq c.vin _ i _ ?_
        intro y hy
        rw [hcv] at hy
        have hyc := Option.some.inj hy
        rw [← hyc]
        simp [hfield.1, hfield.2]
      obtain ⟨c2, d, hdigeq, hkeys2⟩ := hdig
      have hselfkeys : ((self.vin.set i { sv with signature := P.edSignature d sk }).map
          fun v => (v.txid, v.vout)) = (self.vin.map fun v => (v.txid, v.vout)) := by
        refine map_set_eq self.vin _ i _ ?_
        intro y hy
        rw [hsv] at hy
        rw [← Option.some.inj hy]
      have hselfpub : ((self.vin.set i { sv with signature := P.edSignature d sk }).map
          fun v => v.pub_key) = (self.vin.map fun v => v.pub_key) := by
        refine map_set_eq self.vin _ i _ ?_
        intro y hy
        rw [hsv] at hy
        rw [← Option.some.inj hy]
      obtain ⟨out, hout, hvout, hok, hop⟩ := ih
        { self with vin := self.vin.set i { sv with signature := P.edSignature d sk } } c2
        (by
          intro j hj
          simp only [List.length_set]
          exact hbound j (List.mem_cons_of_mem _ hj))
        (by
          rw [hkeys2, hkeys]
          exact hselfkeys.symm)
        (by
          intro v hv
          rcases List.mem_or_eq_of_mem_set hv with hv2 | rfl
          · exact hreq v hv2
          · exact ⟨p, hp, h0, hplen⟩)
      refine ⟨out, ?_, ?_, ?_, ?_⟩
      · unfold signInputs
        simp only [hdigeq, hsv]
        exact hout
      · exact hvout
      · rw [hok]
        exact hselfkeys
      · rw [hop]
        exact hselfpub

theorem sign_ok (P : Prim) (tx : Transaction) (sk : List Nat)
    (prevs : List (String × Transaction))
    (hreq : ∀ v ∈ tx.vin, ∃ p, kvGet prevs v.txid = some p ∧ p.id ≠ "" ∧ 0 ≤ v.vout ∧
      v.vout.toNat < p.vout.length)
    (hnc : tx.is_coinbase = false) :
    ∃ out, Transaction.sign P tx sk prevs = some (Except.ok out) ∧
      out.vout = tx.vout ∧
      ((out.vin.map fun v => (v.txid, v.vout)) = (tx.vin.map fun v => (v.txid, v.vout))) ∧
      ((out.vin.map fun v => v.pub_key) = (tx.vin.map fun v => v.pub_key)) := by
  unfold Transaction.sign
  rw [if_neg (by simp [hnc])]
  have hchk := checkPrevTXs_ok prevs tx.vin
    (fun v hv => (hreq v hv).imp fun p hp => ⟨hp.1, hp.2.1⟩)
  simp only [hchk]
  obtain ⟨out, hsi, h1, h2, h3⟩ := signInputs_ok P sk prevs (List.range tx.vin.length) tx
    (trim_copy tx)
    (by intro i hi; exact List.mem_range.1 hi)
    (by simp [trim_copy, List.map_map])
    (fun v hv => (hreq v hv).imp fun p hp => ⟨hp.1, hp.2.2.1, hp.2.2.2⟩)
  simp only [hsi]
  exact ⟨out, rfl, h1, h2, h3⟩

/-- C6: Transaction::new_UTXO fails with the insufficient-funds error
exactly when find_spendable_outputs accumulates strictly less than
`amount`; on success the outputs are the payment output locked to the
recipient followed by a change output (locked to the wallet's own
address) exactly when the accumulated value exceeds `amount`, and the
inputs are one per selected `(txid, vout)` pair, each carrying the
wallet's public key. Stated for stores backed by the chain: every stored
key is non-empty, resolves through find_transaction, and its stored
output list is no longer than the found transaction's output list. -/
theorem new_UTXO_spec (P : Prim) (chain : List Block) (db : List (String × TXOutputs))
    (wallet : Wallet) (toAddr : String) (amount : Int)
    (hdb : ∀ e ∈ db, e.1 ≠ "" ∧ ∃ t, find_transaction chain e.1 = Except.ok t ∧
      e.2.outputs.length ≤ t.vout.length) :
    ((UTXOSet.find_spendable_outputs db (P.hashPubKey wallet.public_key) amount).1 < amount →
      Transaction.new_UTXO P chain db wallet toAddr amount =
        some (Except.error "Not Enough balance")) ∧
    (¬ (UTXOSet.find_spendable_outputs db (P.hashPubKey wallet.public_key) amount).1 < amount →
      ∃ tx2, Transaction.new_UTXO P chain db wallet toAddr amount = some (Except.ok tx2) ∧
        tx2.vout = [TXOutput.new P amount toAddr] ++
          (if (UTXOSet.find_spendable_outputs db (P.hashPubKey wallet.public_key) amount).1 >
              amount
           then [TXOutput.new P
             ((UTXOSet.find_spendable_outputs db (P.hashPubKey wallet.public_key) amount).1 -
               amount) (wallet.get_address P)]
           else []) ∧
        ((tx2.vin.map fun v => (v.txid, v.vout)) =
          selPairs (UTXOSet.find_spendable_outputs db (P.hashPubKey wallet.public_key) amount).2) ∧
        (∀ v ∈ tx2.vin, v.pub_key = wallet.public_key)) := by
  constructor
  · intro h
    simp only [Transaction.new_UTXO]
    rw [if_pos h]
  · intro h
    simp only [Transaction.new_UTXO]
    rw [if_neg h]
    have hvinKeys : (((UTXOSet.find_spendable_outputs db (P.hashPubKey wallet.public_key)
        amount).2.foldl (fun v txp => v ++ txp.2.map fun out =>
          ({ txid := txp.1, vout := out, signature := [], pub_key := wallet.public_key } :
            TXInput)) []).map fun v => (v.txid, v.vout)) =
        selPairs (UTXOSet.find_spendable_outputs db (P.hashPubKey wallet.public_key) amount).2 := by
      rw [foldl_append_eq, selPairs_eq]
      simp only [List.nil_append, List.map_flatten, List.map_map]
      congr 1
      apply List.map_congr_left
      intro e he
      simp [List.map_map]
    have hvinProps : ∀ v ∈ (UTXOSet.find_spendable_outputs db (P.hashPubKey wallet.public_key)
        amount).2.foldl (fun v txp => v ++ txp.2.map fun out =>
          ({ txid := txp.1, vout := out, signature := [], pub_key := wallet.public_key } :
            TXInput)) [],
        v.signature = [] ∧ v.pub_key = wallet.public_key := by
      rw [foldl_append_eq]
      intro v hv
      simp only [List.nil_append, List.mem_flatten, List.mem_map] at hv
      obtain ⟨L, ⟨txp, htxp, rfl⟩, hvL⟩ := hv
      obtain ⟨o, ho, rfl⟩ := List.mem_map.1 hvL
      exact ⟨rfl, rfl⟩
    have hvalid : ∀ v ∈ (UTXOSet.find_spendable_outputs db (P.hashPubKey wallet.public_key)
        amount).2.foldl (fun v txp => v ++ txp.2.map fun out =>
          ({ txid := txp.1, vout := out, signature := [], pub_key := wallet.public_key } :
            TXInput)) [],
        ∃ e ∈ db, e.1 = v.txid ∧ 0 ≤ v.vout ∧ v.vout.toNat < e.2.outputs.length := by
      intro v hv
      have hpair : (v.txid, v.vout) ∈
          selPairs (UTXOSet.find_spendable_outputs db (P.hashPubKey wallet.public_key)
            amount).2 := by
        rw [← hvinKeys]
        exact List.mem_map.2 ⟨v, hv, rfl⟩
      exact find_spendable_pairs db _ amount v.txid v.vout hpair
    have hfindreq : ∀ v ∈ (UTXOSet.find_spendable_outputs db (P.hashPubKey wallet.public_key)
        amount).2.foldl (fun v txp => v ++ txp.2.map fun out =>
          ({ txid := txp.1, vout := out, signature := [], pub_key := wallet.public_key } :
            TXInput)) [],
        ∃ p, find_transaction chain v.txid = Except.ok p := by
      intro v hv
      obtain ⟨e, he, he1, -, -⟩ := hvalid v hv
      obtain ⟨-, t, hfind, -⟩ := hdb e he
      exact ⟨t, he1 ▸ hfind⟩
    obtain ⟨m, hm, hprop, hkeep, hdom⟩ := prevTxFold_ok chain _ [] hfindreq (by simp [kvGet])
    have hsreq : ∀ v ∈ (UTXOSet.find_spendable_outputs db (P.hashPubKey wallet.public_key)
        amount).2.foldl (fun v txp => v ++ txp.2.map fun out =>
          ({ txid := txp.1, vout := out, signature := [], pub_key := wallet.public_key } :
            TXInput)) [],
        ∃ p, kvGet m v.txid = some p ∧ p.id ≠ "" ∧ 0 ≤ v.vout ∧
          v.vout.toNat < p.vout.length := by
      intro v hv
      have hd := hdom v hv
      obtain ⟨p, hp⟩ : ∃ p, kvGet m v.txid = some p := by
        cases hk : kvGet m v.txid with
        | none => rw [hk] at hd; simp at hd
        | some q => exact ⟨q, rfl⟩
      have hfind := hprop _ _ hp
      have hpid : p.id = v.txid := find_transaction_id chain _ _ hfind
      obtain ⟨e, he, he1, h0, hbd⟩ := hvalid v hv
      obtain ⟨hne, t, hfindt, hlent⟩ := hdb e he
      rw [he1] at hfindt
      rw [hfind] at hfindt
      have hpt : p = t := Except.ok.inj hfindt
      refine ⟨p, hp, ?_, h0, ?_⟩
      · rw [hpid, ← he1]
        exact hne
      · rw [hpt]
        omega
    have hnc : (∀ tx2 : Transaction,
        tx2.vin = (UTXOSet.find_spendable_outputs db (P.hashPubKey wallet.public_key)
          amount).2.foldl (fun v txp => v ++ txp.2.map fun out =>
            ({ txid := txp.1, vout := out, signature := [], pub_key := wallet.public_key } :
              TXInput)) [] →
        tx2.is_coinbase = false) := by
      intro tx2 hvin
      refine is_coinbase_false_of_txids tx2 ?_
      intro v hv
      rw [hvin] at hv
      obtain ⟨e, he, he1, -, -⟩ := hvalid v hv
      rw [← he1]
      exact (hdb e he).1
    unfold sign_transaction get_prev_tx_map
    simp only [hm]
    obtain ⟨out, hsign, h1, h2, h3⟩ := sign_ok P
      { id := Transaction.hash P
          { id := "",
            vin := (UTXOSet.find_spendable_outputs db (P.hashPubKey wallet.public_key)
              amount).2.foldl (fun v txp => v ++ txp.2.map fun out =>
                ({ txid := txp.1, vout := out, signature := [],
                   pub_key := wallet.public_key } : TXInput)) [],
            vout := [TXOutput.new P amount toAddr] ++
              (if (UTXOSet.find_spendable_outputs db (P.hashPubKey wallet.public_key)
                  amount).1 > amount
               then [TXOutput.new P
                 ((UTXOSet.find_spendable_outputs db (P.hashPubKey wallet.public_key)
                   amount).1 - amount) (wallet.get_address P)]
               else []) },
        vin := (UTXOSet.find_spendable_outputs db (P.hashPubKey wallet.public_key)
          amount).2.foldl (fun v txp => v ++ txp.2.map fun out =>
            ({ txid := txp.1, vout := out, signature := [],
               pub_key := wallet.public_key } : TXInput)) [],
        vout := [TXOutput.new P amount toAddr] ++
          (if (UTXOSet.find_spendable_outputs db (P.hashPubKey wallet.public_key)
              amount).1 > amount
           then [TXOutput.new P
             ((UTXOSet.find_spendable_outputs db (P.hashPubKey wallet.public_key)
               amount).1 - amount) (wallet.get_address P)]
           else []) }
      wallet.secret_key m hsreq (hnc _ rfl)
    simp only [hsign]
    refine ⟨out, rfl, ?_, ?_, ?_⟩
    · exact h1
    · rw [h2]
      exact hvinKeys
    · intro v hv
      have hmem : v.pub_key ∈ out.vin.map fun v => v.pub_key := List.mem_map.2 ⟨v, hv, rfl⟩
      rw [h3] at hmem
      obtain ⟨v2, hv2, he⟩ := List.mem_map.1 hmem
      rw [← he]
      exact (hvinProps v2 hv2).2

/-- C6 witness: on a one-entry store holding a 10-valued output, asking to
send 100 fails with the insufficient-funds error. -/
theorem new_UTXO_spec_witness :
    Transaction.new_UTXO P1 chainW dbW walletW "B" 100 =
      some (Except.error "Not Enough balance") :=
  (new_UTXO_spec P1 chainW dbW walletW "B" 100
    (by
      intro e he
      simp only [dbW, List.mem_singleton] at he
      subst he
      exact ⟨by decide, prevTxC1, by decide, by decide⟩)).1 (by decide)

end BlockchainRust
